import Mathlib

/-!
Shallow embedding of the `StateGraph` class of
`src/networkx_graph/state_graph.py` (a state-transition graph manager built
on a networkx `DiGraph`), together with the bulk tool handlers of
`src/networkx_graph/server.py`, and proofs of the specification claims
about them.

Modelling conventions:
* Python dicts are modelled as association lists in insertion order
  (`List (key, value)`); updating an existing key replaces the value in
  place (keeping its position), inserting a fresh key appends at the end,
  exactly as CPython dicts behave.
* The networkx `DiGraph` is modelled by its node dict (node id to attribute
  record, in insertion order) and a flat edge dict keyed by the ordered
  pair of endpoints, in insertion order.  `out_edges u` / `in_edges v`
  iterate the edges with the given source / target in that stored order,
  which coincides with networkx adjacency insertion order because each key
  occurs at most once and in-place updates keep positions.
* networkx `DiGraph.add_edge` on an existing edge MERGES the supplied
  attributes into the existing attribute dict (`datadict.update(attr)`),
  so attribute keys that the new call does not supply survive.
* Exceptions (`ValueError` raise sites) are modelled with `Except` and an
  error type with one constructor per distinct raise site.
* `node_type` attribute values, labels, ids, tools and conditions are
  strings; `order` and `phase` are integers; open `properties` mappings
  are modelled as string-to-string association lists (the claims never
  depend on the value type of a property).
-/

/-- An open `properties` mapping: a Python dict in insertion order. -/
abbrev Props := List (String × String)

/-- A Python value as it occurs in the node/edge payload dicts that the
operations return: a string, an integer, or a nested properties dict. -/
inductive PyVal where
  | str (s : String)
  | int (n : Int)
  | strMap (m : Props)
deriving DecidableEq, Repr

/-- The attribute dict stored for a node: `node_type`, `label` and
`properties` are always present (`add_node` always sets them); `phase` and
`tool` are present exactly when some call has set them. -/
structure NodeAttrs where
  node_type : String
  label : String
  properties : Props
  phase : Option Int
  tool : Option String
deriving DecidableEq, Repr

/-- The attribute dict stored for an edge: `order` and `properties` are
always present; `condition` is present exactly when set. -/
structure EdgeAttrs where
  order : Int
  condition : Option String
  properties : Props
deriving DecidableEq, Repr

/-- The graph state: `graph_id` plus the node dict and the edge dict of the
underlying networkx `DiGraph`, both in insertion order. -/
structure StateGraph where
  graph_id : String
  nodes : List (String × NodeAttrs)
  edges : List ((String × String) × EdgeAttrs)
deriving DecidableEq, Repr

/-- One constructor per distinct `ValueError` raise site of `StateGraph`.
The specification's taxonomy maps `nodeExists` to AlreadyExists,
`invalidNodeType` to InvalidArgument and the rest to NotFound. -/
inductive GraphErr where
  | nodeExists (node_id : String)
  | invalidNodeType (node_type : String)
  | nodeMissing (node_id : String)
  | sourceMissing (node_id : String)
  | targetMissing (node_id : String)
  | edgeMissing (from_node to_node : String)
deriving DecidableEq, Repr

/-- Confirmation record returned by `add_node`. -/
structure NodeAddResult where
  node_id : String
  node_type : String
  status : String
deriving DecidableEq, Repr

/-- Confirmation record returned by `update_node` and `remove_node`. -/
structure NodeStatusResult where
  node_id : String
  status : String
deriving DecidableEq, Repr

/-- Confirmation record returned by `add_edge` and `remove_edge`; the dict
keys are "from", "to" and "status". -/
structure EdgeStatusResult where
  from_node : String
  to_node : String
  status : String
deriving DecidableEq, Repr

/-- A node payload as returned by `list_nodes` and `get_execution_sequence`:
the stored attribute dict with the `node_id` key added at the end. -/
structure NodeRecord where
  node_id : String
  attrs : NodeAttrs
deriving DecidableEq, Repr

/-- An edge payload as returned by `get_edges`: the stored attribute dict
with the `from` and `to` keys added (fields `from_node` / `to_node` here,
since `from` is a Lean keyword). -/
structure EdgeRecord where
  attrs : EdgeAttrs
  from_node : String
  to_node : String
deriving DecidableEq, Repr

namespace StateGraph

/-- Membership test `node_id in self.graph`. -/
def hasNode (g : StateGraph) (node_id : String) : Bool :=
  g.nodes.any (fun p => p.1 == node_id)

/-- Lookup `self.graph.nodes[node_id]`. -/
def lookupNode (g : StateGraph) (node_id : String) : Option NodeAttrs :=
  (g.nodes.find? (fun p => p.1 == node_id)).map Prod.snd

/-- Membership test `self.graph.has_edge(u, v)`. -/
def hasEdge (g : StateGraph) (from_node to_node : String) : Bool :=
  g.edges.any (fun p => p.1 == (from_node, to_node))

/-- Lookup `self.graph.edges[u, v]`. -/
def lookupEdge (g : StateGraph) (from_node to_node : String) : Option EdgeAttrs :=
  (g.edges.find? (fun p => p.1 == (from_node, to_node))).map Prod.snd

end StateGraph

/-- Python dict assignment `d[k] = v`: replace in place if the key is
present, append at the end otherwise. -/
def dictInsert {α : Type} [BEq α] {β : Type} (k : α) (v : β) :
    List (α × β) → List (α × β)
  | [] => [(k, v)]
  | (k', v') :: rest =>
    if k' == k then (k, v) :: rest else (k', v') :: dictInsert k v rest

/-- Python `old.update(new)` on properties dicts: assign each key of `new`
in order into `old`. -/
def propsUpdate (old new : Props) : Props :=
  new.foldl (fun acc kv => dictInsert kv.1 kv.2 acc) old

/-- Python `label or node_id`: the empty string is falsy, so both `None`
and `""` fall back to the default. -/
def pyOrStr (s : Option String) (dflt : String) : String :=
  match s with
  | none => dflt
  | some s => if s == "" then dflt else s

/-- Python `properties or {}` (an empty dict is falsy, and falls back to a
fresh empty dict, which is the same value here). -/
def pyOrProps (p : Option Props) : Props :=
  match p with
  | none => []
  | some p => p

namespace StateGraph

/-- The `__init__` of `StateGraph`: an empty `DiGraph`. -/
def empty (graph_id : String) : StateGraph :=
  { graph_id := graph_id, nodes := [], edges := [] }

/-- `StateGraph.add_node` (the second, effective definition in the class
body; the first, shadowed definition has the same text). -/
def add_node (g : StateGraph) (node_id node_type : String)
    (label : Option String) (phase : Option Int) (tool : Option String)
    (properties : Option Props) :
    Except GraphErr (NodeAddResult × StateGraph) :=
  if g.hasNode node_id then
    .error (.nodeExists node_id)
  else if ¬ (node_type ∈
      ["action", "decision", "verification", "loop", "success", "failure"]) then
    .error (.invalidNodeType node_type)
  else
    let attrs : NodeAttrs :=
      { node_type := node_type
        label := pyOrStr label node_id
        properties := pyOrProps properties
        phase := phase
        tool := tool }
    .ok (⟨node_id, node_type, "added"⟩,
      { g with nodes := g.nodes ++ [(node_id, attrs)] })

/-- The attribute rewrite performed by `update_node`: each provided field
overwrites, except `properties`, which is dict-merged into the existing
mapping. -/
def updNodeAttrs (label : Option String) (phase : Option Int)
    (tool : Option String) (properties : Option Props) (a : NodeAttrs) :
    NodeAttrs :=
  let a := match label with | none => a | some l => { a with label := l }
  let a := match phase with | none => a | some p => { a with phase := some p }
  let a := match tool with | none => a | some t => { a with tool := some t }
  match properties with
  | none => a
  | some ps => { a with properties := propsUpdate a.properties ps }

/-- `StateGraph.update_node`. -/
def update_node (g : StateGraph) (node_id : String) (label : Option String)
    (phase : Option Int) (tool : Option String) (properties : Option Props) :
    Except GraphErr (NodeStatusResult × StateGraph) :=
  if ¬ g.hasNode node_id then
    .error (.nodeMissing node_id)
  else
    .ok (⟨node_id, "updated"⟩,
      { g with nodes := g.nodes.map (fun p =>
          if p.1 == node_id then (p.1, updNodeAttrs label phase tool properties p.2) else p) })

/-- An edge survives networkx `remove_node node_id` exactly when neither
endpoint is the removed node. -/
def edgeSurvives (node_id : String) (e : (String × String) × EdgeAttrs) : Bool :=
  e.1.1 != node_id && e.1.2 != node_id

/-- `StateGraph.remove_node`: networkx `remove_node` deletes the node and
every incident edge (incoming and outgoing). -/
def remove_node (g : StateGraph) (node_id : String) :
    Except GraphErr (NodeStatusResult × StateGraph) :=
  if ¬ g.hasNode node_id then
    .error (.nodeMissing node_id)
  else
    .ok (⟨node_id, "removed"⟩,
      { g with
        nodes := g.nodes.filter (fun p => p.1 != node_id)
        edges := g.edges.filter (edgeSurvives node_id) })

/-- networkx `DiGraph.add_edge`: fetch the existing attribute dict of the
pair (or a fresh empty one) and `update` it with the supplied attributes.
`order` and `properties` are always supplied, so they are overwritten;
`condition` is supplied only when not `None`, so an existing condition
survives a call that does not pass one. -/
def upsertEdge (key : String × String) (order : Int) (condition : Option String)
    (properties : Props) :
    List ((String × String) × EdgeAttrs) → List ((String × String) × EdgeAttrs)
  | [] => [(key, ⟨order, condition, properties⟩)]
  | (k, a) :: rest =>
    if k == key then
      (key, ⟨order,
        (match condition with | some c => some c | none => a.condition),
        properties⟩) :: rest
    else
      (k, a) :: upsertEdge key order condition properties rest

/-- `StateGraph.add_edge`: referential integrity is checked first, then the
edge is inserted (or its attributes merged if the pair already exists). -/
def add_edge (g : StateGraph) (from_node to_node : String) (order : Int)
    (condition : Option String) (properties : Option Props) :
    Except GraphErr (EdgeStatusResult × StateGraph) :=
  if ¬ g.hasNode from_node then
    .error (.sourceMissing from_node)
  else if ¬ g.hasNode to_node then
    .error (.targetMissing to_node)
  else
    .ok (⟨from_node, to_node, "added"⟩,
      { g with
        edges := upsertEdge (from_node, to_node) order condition
                   (pyOrProps properties) g.edges })

/-- `StateGraph.remove_edge`. -/
def remove_edge (g : StateGraph) (from_node to_node : String) :
    Except GraphErr (EdgeStatusResult × StateGraph) :=
  if ¬ g.hasEdge from_node to_node then
    .error (.edgeMissing from_node to_node)
  else
    .ok (⟨from_node, to_node, "removed"⟩,
      { g with edges := g.edges.filter (fun e => e.1 != (from_node, to_node)) })

/-- Helper shared by the two edge-attribute setters: replace the stored
attributes of one edge key in place. -/
def mapEdge (g : StateGraph) (key : String × String) (f : EdgeAttrs → EdgeAttrs) :
    StateGraph :=
  { g with edges := g.edges.map (fun e => if e.1 == key then (e.1, f e.2) else e) }

/-- `StateGraph.set_edge_order`. -/
def set_edge_order (g : StateGraph) (from_node to_node : String) (order : Int) :
    Except GraphErr ((String × String × Int × String) × StateGraph) :=
  if ¬ g.hasEdge from_node to_node then
    .error (.edgeMissing from_node to_node)
  else
    .ok ((from_node, to_node, order, "updated"),
      g.mapEdge (from_node, to_node) (fun a => { a with order := order }))

/-- `StateGraph.set_edge_condition`: `condition = None` deletes the
attribute, otherwise it is overwritten. -/
def set_edge_condition (g : StateGraph) (from_node to_node : String)
    (condition : Option String) :
    Except GraphErr ((String × String × Option String × String) × StateGraph) :=
  if ¬ g.hasEdge from_node to_node then
    .error (.edgeMissing from_node to_node)
  else
    .ok ((from_node, to_node, condition, "updated"),
      g.mapEdge (from_node, to_node) (fun a => { a with condition := condition }))

/-- `StateGraph.get_node`, second (effective) definition: a copy of the
stored attribute dict, with no `node_id` key added. -/
def get_node (g : StateGraph) (node_id : String) : Except GraphErr NodeAttrs :=
  match g.lookupNode node_id with
  | none => .error (.nodeMissing node_id)
  | some a => .ok a

/-- `StateGraph.get_node`, first definition (lines 244-251): it also embeds
the `node_id` key.  In Python a later `def` of the same name in the class
body rebinds the attribute, so this version is shadowed and never
callable; it is embedded only to compare payload shapes. -/
def get_node_v1 (g : StateGraph) (node_id : String) : Except GraphErr NodeRecord :=
  match g.lookupNode node_id with
  | none => .error (.nodeMissing node_id)
  | some a => .ok ⟨node_id, a⟩

/-- `StateGraph.list_nodes`: every node's attribute dict with the
`node_id` key added. -/
def list_nodes (g : StateGraph) : List NodeRecord :=
  g.nodes.map (fun p => ⟨p.1, p.2⟩)

/-- Edge payloads, in stored order, of the edges with the given target
(networkx `in_edges(node_id, data=True)`). -/
def inEdgeRecords (g : StateGraph) (node_id : String) : List EdgeRecord :=
  (g.edges.filter (fun e => e.1.2 == node_id)).map (fun e => ⟨e.2, e.1.1, e.1.2⟩)

/-- Edge payloads, in stored order, of the edges with the given source
(networkx `out_edges(node_id, data=True)`). -/
def outEdgeRecords (g : StateGraph) (node_id : String) : List EdgeRecord :=
  (g.edges.filter (fun e => e.1.1 == node_id)).map (fun e => ⟨e.2, e.1.1, e.1.2⟩)

/-- `StateGraph.get_edges`: with a node filter, the incoming edges followed
by the outgoing edges; with no filter, every edge. -/
def get_edges (g : StateGraph) (node_id : Option String) :
    Except GraphErr (List EdgeRecord) :=
  match node_id with
  | some n =>
    if ¬ g.hasNode n then
      .error (.nodeMissing n)
    else
      .ok (g.inEdgeRecords n ++ g.outEdgeRecords n)
  | none =>
    .ok (g.edges.map (fun e => ⟨e.2, e.1.1, e.1.2⟩))

/-- The successors of a node, in adjacency (insertion) order. -/
def succsOf (g : StateGraph) (u : String) : List String :=
  (g.edges.filter (fun e => e.1.1 == u)).map (fun e => e.1.2)

/-- One breadth-first expansion: the nodes one step beyond the current
frontier that have not been discovered yet, without duplicates. -/
def expand (g : StateGraph) (visited frontier : List String) : List String :=
  (((frontier.map (succsOf g)).flatten).filter (fun v => ¬ visited.contains v)).dedup

/-- Breadth-first levels after the initial one: each step expands the
frontier and stops when nothing new is discovered.  `fuel` bounds the
number of levels; `g.nodes.length` levels always suffice because levels
are disjoint nonempty sets of node ids. -/
def bfsFront (g : StateGraph) : Nat → List String → List String → List (List String)
  | 0, _, _ => []
  | fuel + 1, visited, frontier =>
    let nf := expand g visited frontier
    if nf.isEmpty then [] else nf :: bfsFront g fuel (visited ++ nf) nf

/-- All breadth-first levels from a source: level 0 is the source itself. -/
def bfsLevels (g : StateGraph) (a : String) : List (List String) :=
  [a] :: bfsFront g g.nodes.length [a] [a]

/-- A predecessor of `b` inside a level (used to walk a shortest path
backwards). -/
def findPred (g : StateGraph) (lvl : List String) (b : String) : Option String :=
  lvl.find? (fun u => g.hasEdge u b)

/-- Rebuild a path ending at `b` from the reversed list of the levels that
precede the level of `b`.  When `b` sits in level `k`, some predecessor of
`b` sits in level `k-1`, so the `none` branch is unreachable. -/
def reconstruct (g : StateGraph) (b : String) : List (List String) → List String
  | [] => [b]
  | lvl :: earlier =>
    match findPred g lvl b with
    | some u => reconstruct g u earlier ++ [b]
    | none => [b]

/-- Scan the levels in breadth-first order for the target; on the first
level containing it, rebuild a path.  `earlier` accumulates the levels
already scanned, most recent first. -/
def searchLevels (g : StateGraph) (b : String) :
    List (List String) → List (List String) → Option (List String)
  | _, [] => none
  | earlier, lvl :: rest =>
    if lvl.contains b then some (reconstruct g b earlier)
    else searchLevels g b (lvl :: earlier) rest

/-- `StateGraph.find_path`.  The source delegates to `nx.shortest_path`,
an external library routine; per its documented contract it performs an
unweighted breadth-first search and returns a shortest directed path from
source to target, raising `NetworkXNoPath` when none exists, which
`find_path` catches and turns into the empty list.  The library routine is
modelled here by level-order BFS with backward path reconstruction. -/
def find_path (g : StateGraph) (from_node to_node : String) :
    Except GraphErr (List String) :=
  if ¬ g.hasNode from_node then
    .error (.sourceMissing from_node)
  else if ¬ g.hasNode to_node then
    .error (.targetMissing to_node)
  else
    match searchLevels g to_node [] (bfsLevels g from_node) with
    | some p => .ok p
    | none => .ok []

/-- The comparison key of `outgoing.sort(key=lambda e: e.get("order", 0))`:
every stored edge dict has an `order` key, so the default never fires. -/
def edgeLE (a b : (String × String) × EdgeAttrs) : Bool :=
  decide (a.2.order ≤ b.2.order)

/-- The outgoing edges of a node sorted by `order`.  Python's `list.sort`
is stable, and so is `List.mergeSort`, so ties keep adjacency insertion
order in both. -/
def sortedOutgoing (g : StateGraph) (current : String) :
    List ((String × String) × EdgeAttrs) :=
  (g.edges.filter (fun e => e.1.1 == current)).mergeSort edgeLE

/-- The loop body of `StateGraph.get_execution_sequence`, written with
explicit fuel.  The guard `while current and current not in visited`
treats the empty string as falsy, so a walk reaching a node whose id is
`""` stops without appending it.  The `lookupNode` failure branch would be
a `KeyError` in Python; it is unreachable on graphs whose edges point at
present nodes, which every reachable graph satisfies. -/
def execWalk (g : StateGraph) (until_decision : Bool) :
    Nat → List String → String → List NodeRecord
  | 0, _, _ => []
  | fuel + 1, visited, current =>
    if current == "" || visited.contains current then []
    else
      match g.lookupNode current with
      | none => []
      | some a =>
        if until_decision && a.node_type == "decision" then [⟨current, a⟩]
        else
          match (sortedOutgoing g current).head? with
          | none => [⟨current, a⟩]
          | some e =>
            ⟨current, a⟩ :: execWalk g until_decision fuel (current :: visited) e.1.2

/-- `StateGraph.get_execution_sequence`.  The fuel `g.nodes.length + 1`
never runs out: every iteration adds a distinct present node id to the
visited set (proved as fuel stability below). -/
def get_execution_sequence (g : StateGraph) (from_node : String)
    (until_decision : Bool) : Except GraphErr (List NodeRecord) :=
  if ¬ g.hasNode from_node then
    .error (.sourceMissing from_node)
  else
    .ok (execWalk g until_decision (g.nodes.length + 1) [] from_node)

end StateGraph

/-- One mutation of the `StateGraph` tool surface (the operations named by
the referential-integrity claim). -/
inductive Op where
  | addNode (node_id node_type : String) (label : Option String)
      (phase : Option Int) (tool : Option String) (properties : Option Props)
  | updateNode (node_id : String) (label : Option String) (phase : Option Int)
      (tool : Option String) (properties : Option Props)
  | removeNode (node_id : String)
  | addEdge (from_node to_node : String) (order : Int)
      (condition : Option String) (properties : Option Props)
  | removeEdge (from_node to_node : String)
  | setEdgeOrder (from_node to_node : String) (order : Int)
  | setEdgeCondition (from_node to_node : String) (condition : Option String)
deriving DecidableEq, Repr

/-- A raised `ValueError` leaves the graph untouched (every raise in the
source happens before any mutation). -/
def applyExcept {R : Type} (g : StateGraph)
    (r : Except GraphErr (R × StateGraph)) : StateGraph :=
  match r with
  | .ok (_, g') => g'
  | .error _ => g

/-- Run one operation, keeping the state unchanged on error. -/
def applyOp (g : StateGraph) (op : Op) : StateGraph :=
  match op with
  | .addNode i t l p tl pr => applyExcept g (g.add_node i t l p tl pr)
  | .updateNode i l p tl pr => applyExcept g (g.update_node i l p tl pr)
  | .removeNode i => applyExcept g (g.remove_node i)
  | .addEdge u v o c pr => applyExcept g (g.add_edge u v o c pr)
  | .removeEdge u v => applyExcept g (g.remove_edge u v)
  | .setEdgeOrder u v o => applyExcept g (g.set_edge_order u v o)
  | .setEdgeCondition u v c => applyExcept g (g.set_edge_condition u v c)

/-- Run a sequence of operations from the empty graph. -/
def runOps (graph_id : String) (ops : List Op) : StateGraph :=
  ops.foldl applyOp (StateGraph.empty graph_id)

/-- One item of a `bulk_add_nodes` request. -/
structure NodeSpec where
  node_id : String
  node_type : String
  label : Option String
  phase : Option Int
  tool : Option String
  properties : Option Props
deriving DecidableEq, Repr

/-- One item of a `bulk_add_edges` request (`order` carries the handler's
`edge.get("order", 0)` default already applied). -/
structure EdgeSpec where
  from_node : String
  to_node : String
  order : Int
  condition : Option String
  properties : Option Props
deriving DecidableEq, Repr

/-- Apply one node spec, exactly as the `bulk_add_nodes` handler does. -/
def applyNodeSpec (g : StateGraph) (s : NodeSpec) :
    Except GraphErr (NodeAddResult × StateGraph) :=
  g.add_node s.node_id s.node_type s.label s.phase s.tool s.properties

/-- Apply one edge spec, exactly as the `bulk_add_edges` handler does. -/
def applyEdgeSpec (g : StateGraph) (s : EdgeSpec) :
    Except GraphErr (EdgeStatusResult × StateGraph) :=
  g.add_edge s.from_node s.to_node s.order s.condition s.properties

/-- The `bulk_add_nodes` tool handler: `add_node` is called item by item;
the first exception aborts the loop and propagates, leaving the earlier
items applied (no rollback). -/
def bulk_add_nodes (g : StateGraph) :
    List NodeSpec → StateGraph × Except GraphErr (List NodeAddResult)
  | [] => (g, .ok [])
  | s :: rest =>
    match applyNodeSpec g s with
    | .error e => (g, .error e)
    | .ok (r, g') =>
      match bulk_add_nodes g' rest with
      | (g'', .ok rs) => (g'', .ok (r :: rs))
      | (g'', .error e) => (g'', .error e)

/-- The `bulk_add_edges` tool handler, with the same loop shape. -/
def bulk_add_edges (g : StateGraph) :
    List EdgeSpec → StateGraph × Except GraphErr (List EdgeStatusResult)
  | [] => (g, .ok [])
  | s :: rest =>
    match applyEdgeSpec g s with
    | .error e => (g, .error e)
    | .ok (r, g') =>
      match bulk_add_edges g' rest with
      | (g'', .ok rs) => (g'', .ok (r :: rs))
      | (g'', .error e) => (g'', .error e)

/-- The node attribute dict as a Python dict (key/value list).  The claims
compare key sets and values; when `phase` or `tool` is added by a later
`update_node`, CPython would append the key at the end, which can permute
this canonical order, but no claim depends on dict key order. -/
def NodeAttrs.toDict (a : NodeAttrs) : List (String × PyVal) :=
  [("node_type", .str a.node_type), ("label", .str a.label),
    ("properties", .strMap a.properties)]
  ++ (match a.phase with | none => [] | some p => [("phase", .int p)])
  ++ (match a.tool with | none => [] | some t => [("tool", .str t)])

/-- The payload of `list_nodes` / `get_execution_sequence` entries as a
Python dict: the attribute dict with `node_id` assigned afterwards. -/
def NodeRecord.toDict (r : NodeRecord) : List (String × PyVal) :=
  r.attrs.toDict ++ [("node_id", .str r.node_id)]

/-! The structural invariant of every reachable graph state: node and edge
dict keys are unique (they are Python dict keys), and every edge's
endpoints are present nodes (referential integrity). -/
/-- Referential integrity: both endpoints of every stored edge are node
ids currently present in the graph. -/
def RefIntegrity (g : StateGraph) : Prop :=
  ∀ e ∈ g.edges, g.hasNode e.1.1 = true ∧ g.hasNode e.1.2 = true

/-- The node dict and the edge dict have no duplicate keys. -/
def KeysNodup (g : StateGraph) : Prop :=
  (g.nodes.map Prod.fst).Nodup ∧ (g.edges.map Prod.fst).Nodup

/-- The full structural invariant. -/
def Invariant (g : StateGraph) : Prop :=
  KeysNodup g ∧ RefIntegrity g

/-- The six legal node types. -/
def nodeTypes : List String :=
  ["action", "decision", "verification", "loop", "success", "failure"]

/-! Claim C8: get_edges with a node filter concatenates the incoming and
the outgoing edge lists, so an edge with two distinct endpoints incident
to the node occurs once, but a self-loop occurs twice (once as incoming,
once as outgoing). -/
/-- Number of occurrences of a value in a list (by propositional
equality). -/
def countOcc {α : Type} [DecidableEq α] (x : α) (l : List α) : Nat :=
  l.countP (fun y => decide (y = x))

/-- The number of node ids not yet visited: the decreasing measure of the
walk. -/
def freshCount (g : StateGraph) (visited : List String) : Nat :=
  ((g.nodes.map Prod.fst).filter (fun x => ! visited.contains x)).length

/-! Claim C5: find_path.  Development: directed paths, the breadth-first
levels, path reconstruction, closure of the explored set, and the
level-coverage (minimality) argument. -/
/-- A list of node ids in which every consecutive pair is a directed
edge. -/
def ChainG (g : StateGraph) : List String → Prop
  | [] => True
  | [_] => True
  | u :: v :: rest => g.hasEdge u v = true ∧ ChainG g (v :: rest)

/-- A directed path from `a` to `b` inclusive. -/
def IsPathFT (g : StateGraph) (a b : String) (p : List String) : Prop :=
  p.head? = some a ∧ p.getLast? = some b ∧ ChainG g p

/-- Reachability in at most `n` steps (extension at the far end). -/
def StepsLe (g : StateGraph) : Nat → String → String → Prop
  | 0, u, x => x = u
  | n + 1, u, x => StepsLe g n u x ∨ ∃ w, StepsLe g n u w ∧ g.hasEdge w x = true

/-! The stack of already-produced breadth-first levels, most recent
first: each level's elements have a predecessor in the level below, and
the bottom level is exactly the source. -/
/-- Well-formed stack of levels (top of the stack first). -/
def Stacked (g : StateGraph) (a : String) : List (List String) → Prop
  | [] => True
  | lvl :: rest =>
    (match rest with
      | [] => ∀ x ∈ lvl, x = a
      | lvl' :: _ => ∀ x ∈ lvl, ∃ u ∈ lvl', g.hasEdge u x = true) ∧
    Stacked g a rest

/-- The `def` statements of the `StateGraph` class body of
`src/networkx_graph/state_graph.py`, in textual order: each entry is the
method name together with the 1-based line on which its `def` begins,
transcribed from the source file.  Python executes the class body top to
bottom, so for a name defined more than once only the last definition is
bound to the class attribute. -/
def stateGraphClassDefs : List (String × Nat) :=
  [("create_graph", 17), ("add_node", 27), ("update_node", 63),
   ("remove_node", 92), ("add_edge", 105), ("remove_edge", 136),
   ("set_edge_order", 150), ("set_edge_condition", 165),
   ("get_graph_info", 186), ("validate_graph", 217), ("get_node", 244),
   ("list_nodes", 253), ("get_edges", 263), ("get_node_edges", 288),
   ("find_path", 314), ("get_execution_sequence", 328),
   ("add_node", 374), ("update_node", 423), ("remove_node", 463),
   ("add_edge", 483), ("remove_edge", 525), ("set_edge_order", 547),
   ("set_edge_condition", 571), ("get_graph_info", 599),
   ("validate_graph", 634), ("get_node", 666), ("list_nodes", 681),
   ("get_edges", 695), ("get_node_edges", 728), ("find_path", 761)]

/-- The fourteen method names the class body defines twice. -/
def shadowedMethodNames : List String :=
  ["add_node", "update_node", "remove_node", "add_edge", "remove_edge",
   "set_edge_order", "set_edge_condition", "get_graph_info",
   "validate_graph", "get_node", "list_nodes", "get_edges",
   "get_node_edges", "find_path"]

/-! Basic facts about the membership and lookup helpers. -/
theorem find?_beq_spec {β : Type} {l : List (String × β)} {k : String}
    {p : String × β} (h : l.find? (fun q => q.1 == k) = some p) :
    p.1 = k ∧ p ∈ l := by
  have h1 := List.find?_some h
  have h2 := List.mem_of_find?_eq_some h
  exact ⟨by simpa using h1, h2⟩

theorem find?_pairbeq_spec {β : Type} {l : List ((String × String) × β)}
    {k : String × String} {p : (String × String) × β}
    (h : l.find? (fun q => q.1 == k) = some p) :
    p.1 = k ∧ p ∈ l := by
  have h1 := List.find?_some h
  have h2 := List.mem_of_find?_eq_some h
  exact ⟨by simpa using h1, h2⟩

theorem StateGraph.hasNode_iff {g : StateGraph} {i : String} :
    g.hasNode i = true ↔ i ∈ g.nodes.map Prod.fst := by
  unfold StateGraph.hasNode
  rw [List.any_eq_true]
  constructor
  · rintro ⟨x, hx, hbx⟩
    exact List.mem_map.mpr ⟨x, hx, by simpa using hbx⟩
  · intro hm
    obtain ⟨x, hx, he⟩ := List.mem_map.mp hm
    exact ⟨x, hx, by simpa using he⟩

theorem StateGraph.hasEdge_iff {g : StateGraph} {u v : String} :
    g.hasEdge u v = true ↔ (u, v) ∈ g.edges.map Prod.fst := by
  unfold StateGraph.hasEdge
  rw [List.any_eq_true]
  constructor
  · rintro ⟨x, hx, hbx⟩
    exact List.mem_map.mpr ⟨x, hx, by simpa using hbx⟩
  · intro hm
    obtain ⟨x, hx, he⟩ := List.mem_map.mp hm
    exact ⟨x, hx, by simpa using he⟩

theorem StateGraph.lookupNode_mem {g : StateGraph} {i : String} {a : NodeAttrs}
    (h : g.lookupNode i = some a) : (i, a) ∈ g.nodes := by
  unfold StateGraph.lookupNode at h
  cases hf : g.nodes.find? (fun p => p.1 == i) with
  | none => rw [hf] at h; simp at h
  | some p =>
    rw [hf] at h
    simp at h
    obtain ⟨hk, hm⟩ := find?_beq_spec hf
    have : p = (i, a) := by
      cases p with
      | mk p1 p2 => simp at hk h; simp [hk, h]
    rw [this] at hm; exact hm

theorem StateGraph.hasNode_of_lookupNode {g : StateGraph} {i : String}
    {a : NodeAttrs} (h : g.lookupNode i = some a) : g.hasNode i = true := by
  have := StateGraph.lookupNode_mem h
  rw [StateGraph.hasNode_iff]
  exact List.mem_map.mpr ⟨(i, a), this, rfl⟩

theorem StateGraph.lookupNode_isSome_of_hasNode {g : StateGraph} {i : String}
    (h : g.hasNode i = true) : (g.lookupNode i).isSome = true := by
  unfold StateGraph.hasNode at h
  unfold StateGraph.lookupNode
  rw [List.any_eq_true] at h
  obtain ⟨x, hx, hbx⟩ := h
  cases hf : g.nodes.find? (fun p => p.1 == i) with
  | none =>
    rw [List.find?_eq_none] at hf
    exact absurd hbx (by simpa using hf x hx)
  | some p => simp

theorem invariant_empty (gid : String) : Invariant (StateGraph.empty gid) := by
  refine ⟨⟨List.nodup_nil, List.nodup_nil⟩, ?_⟩
  intro e he
  exact absurd he (List.not_mem_nil e)

/-! Equation lemmas: one per branch of each operation. -/
@[simp] theorem applyExcept_ok {R : Type} (g g' : StateGraph) (r : R) :
    applyExcept g (.ok (r, g')) = g' := rfl

@[simp] theorem applyExcept_error {R : Type} (g : StateGraph) (e : GraphErr) :
    applyExcept g (Except.error e : Except GraphErr (R × StateGraph)) = g := rfl

theorem add_node_eq_error_exists {g : StateGraph} {i t : String}
    {l : Option String} {p : Option Int} {tl : Option String} {pr : Option Props}
    (hi : g.hasNode i = true) :
    g.add_node i t l p tl pr = .error (.nodeExists i) := by
  unfold StateGraph.add_node
  rw [if_pos hi]

theorem add_node_eq_error_type {g : StateGraph} {i t : String}
    {l : Option String} {p : Option Int} {tl : Option String} {pr : Option Props}
    (hi : g.hasNode i = false) (ht : ¬ t ∈ nodeTypes) :
    g.add_node i t l p tl pr = .error (.invalidNodeType t) := by
  unfold StateGraph.add_node
  rw [if_neg (by simp [hi]), if_pos (by exact ht)]

theorem add_node_eq_ok {g : StateGraph} {i t : String}
    {l : Option String} {p : Option Int} {tl : Option String} {pr : Option Props}
    (hi : g.hasNode i = false) (ht : t ∈ nodeTypes) :
    g.add_node i t l p tl pr = .ok (⟨i, t, "added"⟩,
      { g with nodes := g.nodes ++ [(i, ⟨t, pyOrStr l i, pyOrProps pr, p, tl⟩)] }) := by
  unfold StateGraph.add_node
  rw [if_neg (by simp [hi]), if_neg (by exact not_not_intro ht)]

theorem update_node_eq_error {g : StateGraph} {i : String}
    {l : Option String} {p : Option Int} {tl : Option String} {pr : Option Props}
    (hi : g.hasNode i = false) :
    g.update_node i l p tl pr = .error (.nodeMissing i) := by
  unfold StateGraph.update_node
  rw [if_pos (by simp [hi])]

theorem update_node_eq_ok {g : StateGraph} {i : String}
    {l : Option String} {p : Option Int} {tl : Option String} {pr : Option Props}
    (hi : g.hasNode i = true) :
    g.update_node i l p tl pr = .ok (⟨i, "updated"⟩,
      { g with nodes := g.nodes.map (fun q =>
          if q.1 == i then (q.1, StateGraph.updNodeAttrs l p tl pr q.2) else q) }) := by
  unfold StateGraph.update_node
  rw [if_neg (by simp [hi])]

theorem remove_node_eq_error {g : StateGraph} {i : String}
    (hi : g.hasNode i = false) :
    g.remove_node i = .error (.nodeMissing i) := by
  unfold StateGraph.remove_node
  rw [if_pos (by simp [hi])]

theorem remove_node_eq_ok {g : StateGraph} {i : String}
    (hi : g.hasNode i = true) :
    g.remove_node i = .ok (⟨i, "removed"⟩,
      { g with
        nodes := g.nodes.filter (fun p => p.1 != i)
        edges := g.edges.filter (StateGraph.edgeSurvives i) }) := by
  unfold StateGraph.remove_node
  rw [if_neg (by simp [hi])]

theorem add_edge_eq_error_src {g : StateGraph} {u v : String} {o : Int}
    {c : Option String} {pr : Option Props} (hu : g.hasNode u = false) :
    g.add_edge u v o c pr = .error (.sourceMissing u) := by
  unfold StateGraph.add_edge
  rw [if_pos (by simp [hu])]

theorem add_edge_eq_error_tgt {g : StateGraph} {u v : String} {o : Int}
    {c : Option String} {pr : Option Props} (hu : g.hasNode u = true)
    (hv : g.hasNode v = false) :
    g.add_edge u v o c pr = .error (.targetMissing v) := by
  unfold StateGraph.add_edge
  rw [if_neg (by simp [hu]), if_pos (by simp [hv])]

theorem add_edge_eq_ok {g : StateGraph} {u v : String} {o : Int}
    {c : Option String} {pr : Option Props} (hu : g.hasNode u = true)
    (hv : g.hasNode v = true) :
    g.add_edge u v o c pr = .ok (⟨u, v, "added"⟩,
      { g with edges := StateGraph.upsertEdge (u, v) o c (pyOrProps pr) g.edges }) := by
  unfold StateGraph.add_edge
  rw [if_neg (by simp [hu]), if_neg (by simp [hv])]

theorem remove_edge_eq_error {g : StateGraph} {u v : String}
    (hz : g.hasEdge u v = false) :
    g.remove_edge u v = .error (.edgeMissing u v) := by
  unfold StateGraph.remove_edge
  rw [if_pos (by simp [hz])]

theorem remove_edge_eq_ok {g : StateGraph} {u v : String}
    (hz : g.hasEdge u v = true) :
    g.remove_edge u v = .ok (⟨u, v, "removed"⟩,
      { g with edges := g.edges.filter (fun e => e.1 != (u, v)) }) := by
  unfold StateGraph.remove_edge
  rw [if_neg (by simp [hz])]

theorem set_edge_order_eq_error {g : StateGraph} {u v : String} {o : Int}
    (hz : g.hasEdge u v = false) :
    g.set_edge_order u v o = .error (.edgeMissing u v) := by
  unfold StateGraph.set_edge_order
  rw [if_pos (by simp [hz])]

theorem set_edge_order_eq_ok {g : StateGraph} {u v : String} {o : Int}
    (hz : g.hasEdge u v = true) :
    g.set_edge_order u v o = .ok ((u, v, o, "updated"),
      g.mapEdge (u, v) (fun a => { a with order := o })) := by
  unfold StateGraph.set_edge_order
  rw [if_neg (by simp [hz])]

theorem set_edge_condition_eq_error {g : StateGraph} {u v : String}
    {c : Option String} (hz : g.hasEdge u v = false) :
    g.set_edge_condition u v c = .error (.edgeMissing u v) := by
  unfold StateGraph.set_edge_condition
  rw [if_pos (by simp [hz])]

theorem set_edge_condition_eq_ok {g : StateGraph} {u v : String}
    {c : Option String} (hz : g.hasEdge u v = true) :
    g.set_edge_condition u v c = .ok ((u, v, c, "updated"),
      g.mapEdge (u, v) (fun a => { a with condition := c })) := by
  unfold StateGraph.set_edge_condition
  rw [if_neg (by simp [hz])]

/-! Preservation of the structural invariant by every operation. -/
theorem keys_map_keep {κ β : Type} (l : List (κ × β)) (f : κ × β → κ × β)
    (hf : ∀ q ∈ l, (f q).1 = q.1) : (l.map f).map Prod.fst = l.map Prod.fst := by
  rw [List.map_map]
  exact List.map_congr_left (fun q hq => hf q hq)

theorem mem_upsertEdge {key : String × String} {o : Int} {c : Option String}
    {pr : Props} {l : List ((String × String) × EdgeAttrs)}
    {e : (String × String) × EdgeAttrs}
    (h : e ∈ StateGraph.upsertEdge key o c pr l) : e.1 = key ∨ e ∈ l := by
  induction l with
  | nil =>
    unfold StateGraph.upsertEdge at h
    simp at h
    left; rw [h]
  | cons hd tl ih =>
    unfold StateGraph.upsertEdge at h
    by_cases hk : hd.1 == key
    · rw [if_pos (by cases hd; exact hk)] at h
      rcases List.mem_cons.mp h with h | h
      · left; rw [h]
      · right; exact List.mem_cons_of_mem hd h
    · rw [if_neg (by cases hd; exact hk)] at h
      rcases List.mem_cons.mp h with h | h
      · right; rw [h]; exact List.mem_cons_self hd tl
      · rcases ih h with h | h
        · left; exact h
        · right; exact List.mem_cons_of_mem hd h

theorem keys_mem_upsertEdge {key : String × String} {o : Int} {c : Option String}
    {pr : Props} {l : List ((String × String) × EdgeAttrs)} {k : String × String}
    (h : k ∈ (StateGraph.upsertEdge key o c pr l).map Prod.fst) :
    k = key ∨ k ∈ l.map Prod.fst := by
  obtain ⟨e, he, hk⟩ := List.mem_map.mp h
  rcases mem_upsertEdge he with h1 | h1
  · left; rw [← hk, h1]
  · right; exact List.mem_map.mpr ⟨e, h1, hk⟩

theorem keys_nodup_upsertEdge {key : String × String} {o : Int}
    {c : Option String} {pr : Props} {l : List ((String × String) × EdgeAttrs)}
    (h : (l.map Prod.fst).Nodup) :
    ((StateGraph.upsertEdge key o c pr l).map Prod.fst).Nodup := by
  induction l with
  | nil =>
    unfold StateGraph.upsertEdge
    exact List.nodup_singleton key
  | cons hd tl ih =>
    rw [List.map_cons, List.nodup_cons] at h
    obtain ⟨hni, hnd⟩ := h
    unfold StateGraph.upsertEdge
    by_cases hk : hd.1 == key
    · rw [if_pos (by cases hd; exact hk)]
      rw [List.map_cons, List.nodup_cons]
      have hkey : hd.1 = key := by simpa using hk
      exact ⟨by rw [← hkey]; exact hni, hnd⟩
    · rw [if_neg (by cases hd; exact hk)]
      rw [List.map_cons, List.nodup_cons]
      refine ⟨?_, ih hnd⟩
      intro hmem
      rcases keys_mem_upsertEdge hmem with h1 | h1
      · exact absurd h1 (by simpa using hk)
      · exact hni h1

theorem invariant_applyOp (g : StateGraph) (op : Op) (h : Invariant g) :
    Invariant (applyOp g op) := by
  obtain ⟨⟨hn, he⟩, hri⟩ := h
  cases op with
  | addNode i t l p tl pr =>
    show Invariant (applyExcept g (g.add_node i t l p tl pr))
    cases hi : g.hasNode i with
    | true => rw [add_node_eq_error_exists hi, applyExcept_error]; exact ⟨⟨hn, he⟩, hri⟩
    | false =>
      by_cases ht : t ∈ nodeTypes
      · rw [add_node_eq_ok hi ht, applyExcept_ok]
        refine ⟨⟨?_, he⟩, ?_⟩
        · rw [List.map_append]
          refine List.Nodup.append hn (List.nodup_singleton i) ?_
          intro x hx hx1
          rcases List.mem_singleton.mp hx1 with rfl
          rw [← StateGraph.hasNode_iff] at hx
          rw [hi] at hx
          exact Bool.false_ne_true hx
        · intro e hee
          have hint := hri e hee
          have h1 := StateGraph.hasNode_iff.mp hint.1
          have h2 := StateGraph.hasNode_iff.mp hint.2
          constructor
          · rw [StateGraph.hasNode_iff]
            show _ ∈ (g.nodes ++ _).map Prod.fst
            rw [List.map_append]
            exact List.mem_append_left _ h1
          · rw [StateGraph.hasNode_iff]
            show _ ∈ (g.nodes ++ _).map Prod.fst
            rw [List.map_append]
            exact List.mem_append_left _ h2
      · rw [add_node_eq_error_type hi ht, applyExcept_error]; exact ⟨⟨hn, he⟩, hri⟩
  | updateNode i l p tl pr =>
    show Invariant (applyExcept g (g.update_node i l p tl pr))
    cases hi : g.hasNode i with
    | false => rw [update_node_eq_error hi, applyExcept_error]; exact ⟨⟨hn, he⟩, hri⟩
    | true =>
      rw [update_node_eq_ok hi, applyExcept_ok]
      have hkeys : ((g.nodes.map (fun q =>
          if q.1 == i then (q.1, StateGraph.updNodeAttrs l p tl pr q.2) else q)).map
            Prod.fst) = g.nodes.map Prod.fst := by
        refine keys_map_keep g.nodes _ ?_
        intro q _
        by_cases hq : q.1 == i
        · rw [if_pos hq]
        · rw [if_neg hq]
      refine ⟨⟨by rw [hkeys]; exact hn, he⟩, ?_⟩
      intro e hee
      have hint := hri e hee
      have h1 := StateGraph.hasNode_iff.mp hint.1
      have h2 := StateGraph.hasNode_iff.mp hint.2
      constructor
      · rw [StateGraph.hasNode_iff]
        show _ ∈ (g.nodes.map _).map Prod.fst
        rw [hkeys]
        exact h1
      · rw [StateGraph.hasNode_iff]
        show _ ∈ (g.nodes.map _).map Prod.fst
        rw [hkeys]
        exact h2
  | removeNode i =>
    show Invariant (applyExcept g (g.remove_node i))
    cases hi : g.hasNode i with
    | false => rw [remove_node_eq_error hi, applyExcept_error]; exact ⟨⟨hn, he⟩, hri⟩
    | true =>
      rw [remove_node_eq_ok hi, applyExcept_ok]
      refine ⟨⟨?_, ?_⟩, ?_⟩
      · exact List.Nodup.sublist (List.Sublist.map _ (List.filter_sublist _)) hn
      · exact List.Nodup.sublist (List.Sublist.map _ (List.filter_sublist _)) he
      · intro e hee
        rw [List.mem_filter] at hee
        obtain ⟨hee, hsurv⟩ := hee
        unfold StateGraph.edgeSurvives at hsurv
        rw [Bool.and_eq_true] at hsurv
        have h1 : ¬ e.1.1 = i := by simpa using hsurv.1
        have h2 : ¬ e.1.2 = i := by simpa using hsurv.2
        have hint := hri e hee
        have hm1 := StateGraph.hasNode_iff.mp hint.1
        have hm2 := StateGraph.hasNode_iff.mp hint.2
        constructor
        · rw [StateGraph.hasNode_iff]
          rcases List.mem_map.mp hm1 with ⟨q, hq, hqe⟩
          refine List.mem_map.mpr ⟨q, List.mem_filter.mpr ⟨hq, ?_⟩, hqe⟩
          rw [hqe]
          simpa using h1
        · rw [StateGraph.hasNode_iff]
          rcases List.mem_map.mp hm2 with ⟨q, hq, hqe⟩
          refine List.mem_map.mpr ⟨q, List.mem_filter.mpr ⟨hq, ?_⟩, hqe⟩
          rw [hqe]
          simpa using h2
  | addEdge u v o c pr =>
    show Invariant (applyExcept g (g.add_edge u v o c pr))
    cases hu : g.hasNode u with
    | false => rw [add_edge_eq_error_src hu, applyExcept_error]; exact ⟨⟨hn, he⟩, hri⟩
    | true =>
      cases hv : g.hasNode v with
      | false => rw [add_edge_eq_error_tgt hu hv, applyExcept_error]; exact ⟨⟨hn, he⟩, hri⟩
      | true =>
        rw [add_edge_eq_ok hu hv, applyExcept_ok]
        refine ⟨⟨hn, keys_nodup_upsertEdge he⟩, ?_⟩
        intro e hee
        rcases mem_upsertEdge hee with h1 | h1
        · rw [h1]; exact ⟨hu, hv⟩
        · exact hri e h1
  | removeEdge u v =>
    show Invariant (applyExcept g (g.remove_edge u v))
    cases hz : g.hasEdge u v with
    | false => rw [remove_edge_eq_error hz, applyExcept_error]; exact ⟨⟨hn, he⟩, hri⟩
    | true =>
      rw [remove_edge_eq_ok hz, applyExcept_ok]
      refine ⟨⟨hn, List.Nodup.sublist (List.Sublist.map _ (List.filter_sublist _)) he⟩, ?_⟩
      intro e hee
      rw [List.mem_filter] at hee
      exact hri e hee.1
  | setEdgeOrder u v o =>
    show Invariant (applyExcept g (g.set_edge_order u v o))
    cases hz : g.hasEdge u v with
    | false => rw [set_edge_order_eq_error hz, applyExcept_error]; exact ⟨⟨hn, he⟩, hri⟩
    | true =>
      rw [set_edge_order_eq_ok hz, applyExcept_ok]
      unfold StateGraph.mapEdge
      have hkeys : ((g.edges.map (fun e =>
          if e.1 == (u, v) then (e.1, { e.2 with order := o }) else e)).map
            Prod.fst) = g.edges.map Prod.fst := by
        refine keys_map_keep g.edges _ ?_
        intro q _
        by_cases hq : q.1 == (u, v)
        · rw [if_pos hq]
        · rw [if_neg hq]
      refine ⟨⟨hn, by rw [hkeys]; exact he⟩, ?_⟩
      intro e hee
      rcases List.mem_map.mp hee with ⟨q, hq, hqe⟩
      have hint := hri q hq
      by_cases hqk : q.1 == (u, v)
      · rw [if_pos hqk] at hqe
        rw [← hqe]
        exact hint
      · rw [if_neg hqk] at hqe
        rw [← hqe]
        exact hint
  | setEdgeCondition u v c =>
    show Invariant (applyExcept g (g.set_edge_condition u v c))
    cases hz : g.hasEdge u v with
    | false => rw [set_edge_condition_eq_error hz, applyExcept_error]; exact ⟨⟨hn, he⟩, hri⟩
    | true =>
      rw [set_edge_condition_eq_ok hz, applyExcept_ok]
      unfold StateGraph.mapEdge
      have hkeys : ((g.edges.map (fun e =>
          if e.1 == (u, v) then (e.1, { e.2 with condition := c }) else e)).map
            Prod.fst) = g.edges.map Prod.fst := by
        refine keys_map_keep g.edges _ ?_
        intro q _
        by_cases hq : q.1 == (u, v)
        · rw [if_pos hq]
        · rw [if_neg hq]
      refine ⟨⟨hn, by rw [hkeys]; exact he⟩, ?_⟩
      intro e hee
      rcases List.mem_map.mp hee with ⟨q, hq, hqe⟩
      have hint := hri q hq
      by_cases hqk : q.1 == (u, v)
      · rw [if_pos hqk] at hqe
        rw [← hqe]
        exact hint
      · rw [if_neg hqk] at hqe
        rw [← hqe]
        exact hint

theorem invariant_foldl (ops : List Op) :
    ∀ g : StateGraph, Invariant g → Invariant (ops.foldl applyOp g) := by
  induction ops with
  | nil => intro g hg; exact hg
  | cons op rest ih =>
    intro g hg
    rw [List.foldl_cons]
    exact ih (applyOp g op) (invariant_applyOp g op hg)

theorem invariant_runOps (gid : String) (ops : List Op) :
    Invariant (runOps gid ops) :=
  invariant_foldl ops (StateGraph.empty gid) (invariant_empty gid)

/-! Claim C1: referential integrity is an invariant of the graph state. -/
/-- C1.  After any sequence of StateGraph operations (addNode, updateNode,
removeNode, addEdge, removeEdge, setEdgeOrder, setEdgeCondition) starting
from the empty graph, every edge's two endpoints are node ids currently
present in the graph; `add_edge` fails with the NotFound-class errors when
either endpoint is missing, and `remove_node` removes all incident edges,
so no dangling edge survives. -/
theorem claim_C1_referential_integrity :
    (∀ (gid : String) (ops : List Op), RefIntegrity (runOps gid ops)) ∧
    (∀ (g : StateGraph) (u v : String) (o : Int) (c : Option String)
        (pr : Option Props), g.hasNode u = false →
      g.add_edge u v o c pr = .error (.sourceMissing u)) ∧
    (∀ (g : StateGraph) (u v : String) (o : Int) (c : Option String)
        (pr : Option Props), g.hasNode u = true → g.hasNode v = false →
      g.add_edge u v o c pr = .error (.targetMissing v)) ∧
    (∀ (g : StateGraph) (i : String) (r : NodeStatusResult) (g' : StateGraph),
      g.remove_node i = .ok (r, g') →
      ∀ e ∈ g'.edges, ¬ e.1.1 = i ∧ ¬ e.1.2 = i) := by
  refine ⟨?_, ?_, ?_, ?_⟩
  · intro gid ops
    exact (invariant_runOps gid ops).2
  · intro g u v o c pr hu
    exact add_edge_eq_error_src hu
  · intro g u v o c pr hu hv
    exact add_edge_eq_error_tgt hu hv
  · intro g i r g' hok e he
    cases hi : g.hasNode i with
    | false =>
      rw [remove_node_eq_error hi] at hok
      exact absurd hok (by simp)
    | true =>
      rw [remove_node_eq_ok hi] at hok
      injection hok with hok
      have hg' : g' = { g with
          nodes := g.nodes.filter (fun p => p.1 != i)
          edges := g.edges.filter (StateGraph.edgeSurvives i) } :=
        (congrArg Prod.snd hok).symm
      rw [hg'] at he
      have := (List.mem_filter.mp he).2
      unfold StateGraph.edgeSurvives at this
      rw [Bool.and_eq_true] at this
      exact ⟨by simpa using this.1, by simpa using this.2⟩

/-- Witness for C1: concrete instantiations discharging each hypothesis. -/
theorem claim_C1_witness :
    RefIntegrity (runOps "g"
      [Op.addNode "A" "action" none none none none,
       Op.addNode "B" "action" none none none none,
       Op.addEdge "A" "B" 0 none none]) ∧
    ((StateGraph.empty "g").add_edge "A" "B" 0 none none
      = .error (.sourceMissing "A")) ∧
    ((runOps "g" [Op.addNode "A" "action" none none none none]).add_edge
      "A" "B" 0 none none = .error (.targetMissing "B")) ∧
    (∀ e ∈ (StateGraph.mk "g" [("B", ⟨"action", "B", [], none, none⟩)] []).edges,
      ¬ e.1.1 = "A" ∧ ¬ e.1.2 = "A") := by
  refine ⟨?_, ?_, ?_, ?_⟩
  · exact claim_C1_referential_integrity.1 "g" _
  · exact claim_C1_referential_integrity.2.1 _ "A" "B" 0 none none (by decide)
  · exact claim_C1_referential_integrity.2.2.1 _ "A" "B" 0 none none
      (by decide) (by decide)
  · exact claim_C1_referential_integrity.2.2.2
      (StateGraph.mk "g"
        [("A", ⟨"action", "A", [], none, none⟩), ("B", ⟨"action", "B", [], none, none⟩)]
        [(("A", "B"), ⟨0, none, []⟩)])
      "A" ⟨"A", "removed"⟩ _ (by rfl)

/-! Claim C6: error behaviour of add_node. -/
/-- C6.  `add_node` with a present id fails with the AlreadyExists error
regardless of the other arguments and leaves the state unchanged;
`add_node` with an absent id and a node type outside the six-value enum
fails with the InvalidArgument error, also leaving the state unchanged. -/
theorem claim_C6_add_node_errors :
    (∀ (g : StateGraph) (i t : String) (l : Option String) (p : Option Int)
        (tl : Option String) (pr : Option Props), g.hasNode i = true →
      g.add_node i t l p tl pr = .error (.nodeExists i) ∧
      applyOp g (.addNode i t l p tl pr) = g) ∧
    (∀ (g : StateGraph) (i t : String) (l : Option String) (p : Option Int)
        (tl : Option String) (pr : Option Props),
      g.hasNode i = false → ¬ t ∈ nodeTypes →
      g.add_node i t l p tl pr = .error (.invalidNodeType t) ∧
      applyOp g (.addNode i t l p tl pr) = g) := by
  constructor
  · intro g i t l p tl pr hi
    refine ⟨add_node_eq_error_exists hi, ?_⟩
    show applyExcept g (g.add_node i t l p tl pr) = g
    rw [add_node_eq_error_exists hi, applyExcept_error]
  · intro g i t l p tl pr hi ht
    refine ⟨add_node_eq_error_type hi ht, ?_⟩
    show applyExcept g (g.add_node i t l p tl pr) = g
    rw [add_node_eq_error_type hi ht, applyExcept_error]

/-- Witness for C6 at a concrete graph: a duplicate id and an invalid
node type. -/
theorem claim_C6_witness :
    ((StateGraph.mk "g" [("A", ⟨"action", "A", [], none, none⟩)] []).add_node
        "A" "decision" none none none none = .error (.nodeExists "A")) ∧
    ((StateGraph.mk "g" [("A", ⟨"action", "A", [], none, none⟩)] []).add_node
        "B" "bogus" none none none none = .error (.invalidNodeType "bogus")) := by
  constructor
  · exact (claim_C6_add_node_errors.1
      (StateGraph.mk "g" [("A", ⟨"action", "A", [], none, none⟩)] [])
      "A" "decision" none none none none (by decide)).1
  · exact (claim_C6_add_node_errors.2
      (StateGraph.mk "g" [("A", ⟨"action", "A", [], none, none⟩)] [])
      "B" "bogus" none none none none (by decide) (by decide)).1

/-! Claim C7: remove_node cascades over exactly the incident edges. -/
theorem countP_key_eq_one {β : Type} {l : List (String × β)} {i : String}
    (hn : (l.map Prod.fst).Nodup) (hm : i ∈ l.map Prod.fst) :
    l.countP (fun p => p.1 == i) = 1 := by
  have h1 : (l.map Prod.fst).countP (fun x => x == i) = l.countP (fun p => p.1 == i) := by
    rw [List.countP_map]
    rfl
  rw [← h1]
  have h2 : (l.map Prod.fst).count i = 1 :=
    List.count_eq_one_of_mem hn hm
  rw [← h2]
  rfl

/-- C7.  On any reachable graph state (node dict keys are unique) and any
present node with exactly k incident edges (incoming plus outgoing, a
self-loop counted once because the edge dict stores the pair once),
`remove_node` succeeds, decreases the node count by exactly 1 and the edge
count by exactly k, keeps every other node, and keeps exactly the
non-incident edges. -/
theorem claim_C7_remove_node_counts (g : StateGraph) (i : String)
    (hn : (g.nodes.map Prod.fst).Nodup) (hi : g.hasNode i = true) :
    ∃ g', g.remove_node i = .ok (⟨i, "removed"⟩, g') ∧
      g'.nodes.length + 1 = g.nodes.length ∧
      g'.edges.length
          + (g.edges.filter (fun e => e.1.1 == i || e.1.2 == i)).length
        = g.edges.length ∧
      (∀ p ∈ g.nodes, ¬ p.1 = i → p ∈ g'.nodes) ∧
      (∀ p ∈ g'.nodes, p ∈ g.nodes ∧ ¬ p.1 = i) ∧
      (∀ e ∈ g.edges, ¬ e.1.1 = i → ¬ e.1.2 = i → e ∈ g'.edges) ∧
      (∀ e ∈ g'.edges, e ∈ g.edges ∧ ¬ e.1.1 = i ∧ ¬ e.1.2 = i) := by
  refine ⟨_, remove_node_eq_ok hi, ?_, ?_, ?_, ?_, ?_, ?_⟩
  · show (g.nodes.filter (fun p => p.1 != i)).length + 1 = g.nodes.length
    have hsplit := List.length_eq_countP_add_countP (fun p => p.1 == i) g.nodes
    have hone : g.nodes.countP (fun p => p.1 == i) = 1 :=
      countP_key_eq_one hn (StateGraph.hasNode_iff.mp hi)
    have hflt : (g.nodes.filter (fun p => p.1 != i)).length
        = g.nodes.countP (fun p => p.1 != i) := by
      rw [List.countP_eq_length_filter]
    have hcong : g.nodes.countP (fun p => p.1 != i)
        = g.nodes.countP (fun p => ¬ (p.1 == i)) := by
      refine List.countP_congr ?_
      intro p _
      simp [bne]
    rw [hflt, hcong]
    omega
  · show (g.edges.filter (StateGraph.edgeSurvives i)).length
        + (g.edges.filter (fun e => e.1.1 == i || e.1.2 == i)).length
      = g.edges.length
    have hsplit := List.length_eq_countP_add_countP
      (fun e => e.1.1 == i || e.1.2 == i) g.edges
    have h1 : (g.edges.filter (StateGraph.edgeSurvives i)).length
        = g.edges.countP (StateGraph.edgeSurvives i) := by
      rw [List.countP_eq_length_filter]
    have h2 : (g.edges.filter (fun e => e.1.1 == i || e.1.2 == i)).length
        = g.edges.countP (fun e => e.1.1 == i || e.1.2 == i) := by
      rw [List.countP_eq_length_filter]
    have h3 : g.edges.countP (StateGraph.edgeSurvives i)
        = g.edges.countP (fun e => ¬ (e.1.1 == i || e.1.2 == i)) := by
      refine List.countP_congr ?_
      intro e _
      unfold StateGraph.edgeSurvives
      simp [bne]
    rw [h1, h2, h3]
    omega
  · intro p hp hpne
    refine List.mem_filter.mpr ⟨hp, ?_⟩
    simpa using hpne
  · intro p hp
    have := List.mem_filter.mp hp
    exact ⟨this.1, by simpa using this.2⟩
  · intro e he h1 h2
    refine List.mem_filter.mpr ⟨he, ?_⟩
    unfold StateGraph.edgeSurvives
    rw [Bool.and_eq_true]
    exact ⟨by simpa using h1, by simpa using h2⟩
  · intro e he
    have := List.mem_filter.mp he
    have hs := this.2
    unfold StateGraph.edgeSurvives at hs
    rw [Bool.and_eq_true] at hs
    exact ⟨this.1, by simpa using hs.1, by simpa using hs.2⟩

/-- Witness for C7: removing a node with two incident edges, one of them
pointing in, from a concrete four-edge graph. -/
theorem claim_C7_witness :
    ∃ g', (StateGraph.mk "g"
        [("A", ⟨"action", "A", [], none, none⟩),
         ("B", ⟨"action", "B", [], none, none⟩),
         ("C", ⟨"action", "C", [], none, none⟩)]
        [(("A", "B"), ⟨0, none, []⟩), (("B", "C"), ⟨0, none, []⟩),
         (("A", "C"), ⟨0, none, []⟩)]).remove_node "B"
      = .ok (⟨"B", "removed"⟩, g') ∧
      g'.nodes.length + 1 = 3 ∧
      g'.edges.length + 2 = 3 := by
  obtain ⟨g', hok, hnl, hel, -⟩ := claim_C7_remove_node_counts
    (StateGraph.mk "g"
        [("A", ⟨"action", "A", [], none, none⟩),
         ("B", ⟨"action", "B", [], none, none⟩),
         ("C", ⟨"action", "C", [], none, none⟩)]
        [(("A", "B"), ⟨0, none, []⟩), (("B", "C"), ⟨0, none, []⟩),
         (("A", "C"), ⟨0, none, []⟩)]) "B" (by decide) (by decide)
  refine ⟨g', hok, by simpa using hnl, ?_⟩
  have : (List.filter (fun e => e.1.1 == "B" || e.1.2 == "B")
      [(("A", "B"), (⟨0, none, []⟩ : EdgeAttrs)), (("B", "C"), ⟨0, none, []⟩),
       (("A", "C"), ⟨0, none, []⟩)]).length = 2 := by decide
  rw [this] at hel
  simpa using hel

/-! Claim C4: re-adding an existing edge.  networkx `add_edge` merges the
supplied attribute keys into the existing attribute dict, so `order` and
`properties` (always supplied) are replaced, while a previously stored
`condition` survives a call that does not supply one. -/
theorem lookup_upsertEdge_self (key : String × String) (o : Int)
    (c : Option String) (pr : Props)
    (l : List ((String × String) × EdgeAttrs)) :
    (StateGraph.upsertEdge key o c pr l).find? (fun q => q.1 == key)
      = some (key, ⟨o,
          (match c, l.find? (fun q => q.1 == key) with
            | some cv, _ => some cv
            | none, some p => p.2.condition
            | none, none => none), pr⟩) := by
  induction l with
  | nil =>
    unfold StateGraph.upsertEdge
    rw [List.find?_cons_of_pos _ (by simp)]
    cases c with
    | none => rfl
    | some cv => rfl
  | cons hd tl ih =>
    unfold StateGraph.upsertEdge
    by_cases hk : hd.1 == key
    · rw [if_pos (by cases hd; exact hk)]
      rw [List.find?_cons_of_pos _ (by simp)]
      rw [List.find?_cons_of_pos _ (by exact hk)]
      cases c with
      | none => rfl
      | some cv => rfl
    · rw [if_neg (by cases hd; exact hk)]
      rw [List.find?_cons_of_neg _ (by cases hd; exact hk)]
      rw [List.find?_cons_of_neg _ (by exact hk)]
      exact ih

theorem lookup_upsertEdge_other {key k2 : String × String} (o : Int)
    (c : Option String) (pr : Props)
    (l : List ((String × String) × EdgeAttrs)) (hne : ¬ k2 = key) :
    (StateGraph.upsertEdge key o c pr l).find? (fun q => q.1 == k2)
      = l.find? (fun q => q.1 == k2) := by
  induction l with
  | nil =>
    unfold StateGraph.upsertEdge
    rw [List.find?_cons_of_neg _ (by simp; exact fun h => hne h.symm)]
  | cons hd tl ih =>
    unfold StateGraph.upsertEdge
    by_cases hk : hd.1 == key
    · have hkeq : hd.1 = key := by simpa using hk
      rw [if_pos (by cases hd; exact hk)]
      rw [List.find?_cons_of_neg _ (by simp; exact fun h => hne h.symm)]
      rw [List.find?_cons_of_neg _ (by rw [hkeq]; simp; exact fun h => hne h.symm)]
    · rw [if_neg (by cases hd; exact hk)]
      by_cases hk2 : hd.1 == k2
      · rw [List.find?_cons_of_pos _ (by exact hk2), List.find?_cons_of_pos _ (by exact hk2)]
      · rw [List.find?_cons_of_neg _ (by exact hk2), List.find?_cons_of_neg _ (by exact hk2)]
        exact ih

/-- C4 counterexample.  Starting from a graph whose edge (a,b) carries
condition "yes", calling `add_edge a b 1` with no condition succeeds and
leaves the stored condition equal to `some "yes"`, not `none`: the claim's
"the edge has a condition attribute if and only if the new call supplied
one" fails in the only-if direction. -/
theorem claim_C4_counterexample :
    ((StateGraph.mk "g"
        [("a", ⟨"action", "a", [], none, none⟩),
         ("b", ⟨"action", "b", [], none, none⟩)]
        [(("a", "b"), ⟨0, some "yes", []⟩)]).add_edge "a" "b" 1 none none
      = .ok (⟨"a", "b", "added"⟩,
        StateGraph.mk "g"
          [("a", ⟨"action", "a", [], none, none⟩),
           ("b", ⟨"action", "b", [], none, none⟩)]
          [(("a", "b"), ⟨1, some "yes", []⟩)])) ∧
    ¬ (⟨1, some "yes", []⟩ : EdgeAttrs).condition = none := by
  exact ⟨by rfl, by simp⟩

/-- C4 as amended.  Re-adding an existing edge whose endpoints are present
succeeds with no error; the stored `order` becomes the new one and the
stored `properties` mapping is replaced wholesale by the new one, but the
`condition` attribute is the newly supplied one only when one is supplied:
otherwise the previously stored condition (if any) is retained, because
networkx merges the supplied attributes into the existing dict. -/
theorem claim_C4_add_edge_overwrite (g : StateGraph) (u v : String) (o : Int)
    (c : Option String) (pr : Option Props) (old : EdgeAttrs)
    (hold : g.lookupEdge u v = some old)
    (hu : g.hasNode u = true) (hv : g.hasNode v = true) :
    ∃ g', g.add_edge u v o c pr = .ok (⟨u, v, "added"⟩, g') ∧
      g'.lookupEdge u v = some ⟨o,
        (match c with | some cv => some cv | none => old.condition),
        pyOrProps pr⟩ ∧
      g'.nodes = g.nodes := by
  refine ⟨_, add_edge_eq_ok hu hv, ?_, rfl⟩
  show ((StateGraph.upsertEdge (u, v) o c (pyOrProps pr) g.edges).find?
      (fun q => q.1 == (u, v))).map Prod.snd = _
  rw [lookup_upsertEdge_self]
  unfold StateGraph.lookupEdge at hold
  cases hf : g.edges.find? (fun q => q.1 == (u, v)) with
  | none =>
    rw [hf] at hold
    exact absurd hold (by simp)
  | some p =>
    rw [hf] at hold
    have hp2 : p.2 = old := by simpa using hold
    cases c with
    | none => simp [hp2]
    | some cv => simp

/-- Witness for C4: the overwrite on a concrete graph, once with and once
without a freshly supplied condition. -/
theorem claim_C4_witness :
    ∃ g', (StateGraph.mk "g"
        [("a", ⟨"action", "a", [], none, none⟩),
         ("b", ⟨"action", "b", [], none, none⟩)]
        [(("a", "b"), ⟨0, some "yes", ([("k", "w")] : Props)⟩)]).add_edge
          "a" "b" 7 none (some [("z", "q")])
      = .ok (⟨"a", "b", "added"⟩, g') ∧
      g'.lookupEdge "a" "b" = some ⟨7, some "yes", [("z", "q")]⟩ := by
  obtain ⟨g', hok, hlk, -⟩ := claim_C4_add_edge_overwrite
    (StateGraph.mk "g"
        [("a", ⟨"action", "a", [], none, none⟩),
         ("b", ⟨"action", "b", [], none, none⟩)]
        [(("a", "b"), ⟨0, some "yes", [("k", "w")]⟩)])
    "a" "b" 7 none (some [("z", "q")]) ⟨0, some "yes", [("k", "w")]⟩
    (by rfl) (by decide) (by decide)
  exact ⟨g', hok, hlk⟩

/-! Claim C9: bulk operations apply items sequentially with no rollback. -/
theorem applyNodeSpec_ok_result {g g' : StateGraph} {s : NodeSpec}
    {r : NodeAddResult} (h : applyNodeSpec g s = .ok (r, g')) :
    r = ⟨s.node_id, s.node_type, "added"⟩ := by
  unfold applyNodeSpec at h
  cases hi : g.hasNode s.node_id with
  | true =>
    rw [add_node_eq_error_exists hi] at h
    exact absurd h (by simp)
  | false =>
    by_cases ht : s.node_type ∈ nodeTypes
    · rw [add_node_eq_ok hi ht] at h
      injection h with h
      exact (congrArg Prod.fst h).symm
    · rw [add_node_eq_error_type hi ht] at h
      exact absurd h (by simp)

theorem applyEdgeSpec_ok_result {g g' : StateGraph} {s : EdgeSpec}
    {r : EdgeStatusResult} (h : applyEdgeSpec g s = .ok (r, g')) :
    r = ⟨s.from_node, s.to_node, "added"⟩ := by
  unfold applyEdgeSpec at h
  cases hu : g.hasNode s.from_node with
  | false =>
    rw [add_edge_eq_error_src hu] at h
    exact absurd h (by simp)
  | true =>
    cases hv : g.hasNode s.to_node with
    | false =>
      rw [add_edge_eq_error_tgt hu hv] at h
      exact absurd h (by simp)
    | true =>
      rw [add_edge_eq_ok hu hv] at h
      injection h with h
      exact (congrArg Prod.fst h).symm

theorem bulk_add_nodes_cons_ok {g g' : StateGraph} {s : NodeSpec}
    {rest : List NodeSpec} {rs : List NodeAddResult}
    (h : bulk_add_nodes g (s :: rest) = (g', .ok rs)) :
    ∃ r g2 rs2, applyNodeSpec g s = .ok (r, g2) ∧
      bulk_add_nodes g2 rest = (g', .ok rs2) ∧ rs = r :: rs2 := by
  cases ha : applyNodeSpec g s with
  | error e =>
    have key : bulk_add_nodes g (s :: rest) = (g, .error e) := by
      show (match applyNodeSpec g s with
        | Except.error e => (g, Except.error e)
        | Except.ok (r, g2) =>
          match bulk_add_nodes g2 rest with
          | (g3, Except.ok rs2) => (g3, Except.ok (r :: rs2))
          | (g3, Except.error e) => (g3, Except.error e)) = (g, Except.error e)
      rw [ha]
    rw [key] at h
    have := congrArg Prod.snd h
    exact absurd this (by simp)
  | ok p =>
    obtain ⟨r, g2⟩ := p
    have key : bulk_add_nodes g (s :: rest)
        = match bulk_add_nodes g2 rest with
          | (g3, Except.ok rs2) => (g3, Except.ok (r :: rs2))
          | (g3, Except.error e) => (g3, Except.error e) := by
      show (match applyNodeSpec g s with
        | Except.error e => (g, Except.error e)
        | Except.ok (r, g2) =>
          match bulk_add_nodes g2 rest with
          | (g3, Except.ok rs2) => (g3, Except.ok (r :: rs2))
          | (g3, Except.error e) => (g3, Except.error e)) = _
      rw [ha]
    rw [key] at h
    cases hb : bulk_add_nodes g2 rest with
    | mk g3 res =>
      rw [hb] at h
      cases res with
      | error e =>
        have := congrArg Prod.snd h
        exact absurd this (by simp)
      | ok rs2 =>
        have h1 := congrArg Prod.fst h
        have h2 := congrArg Prod.snd h
        simp at h1 h2
        exact ⟨r, g2, rs2, rfl, by rw [hb, h1], h2.symm⟩

theorem bulk_add_edges_cons_ok {g g' : StateGraph} {s : EdgeSpec}
    {rest : List EdgeSpec} {rs : List EdgeStatusResult}
    (h : bulk_add_edges g (s :: rest) = (g', .ok rs)) :
    ∃ r g2 rs2, applyEdgeSpec g s = .ok (r, g2) ∧
      bulk_add_edges g2 rest = (g', .ok rs2) ∧ rs = r :: rs2 := by
  cases ha : applyEdgeSpec g s with
  | error e =>
    have key : bulk_add_edges g (s :: rest) = (g, .error e) := by
      show (match applyEdgeSpec g s with
        | Except.error e => (g, Except.error e)
        | Except.ok (r, g2) =>
          match bulk_add_edges g2 rest with
          | (g3, Except.ok rs2) => (g3, Except.ok (r :: rs2))
          | (g3, Except.error e) => (g3, Except.error e)) = (g, Except.error e)
      rw [ha]
    rw [key] at h
    have := congrArg Prod.snd h
    exact absurd this (by simp)
  | ok p =>
    obtain ⟨r, g2⟩ := p
    have key : bulk_add_edges g (s :: rest)
        = match bulk_add_edges g2 rest with
          | (g3, Except.ok rs2) => (g3, Except.ok (r :: rs2))
          | (g3, Except.error e) => (g3, Except.error e) := by
      show (match applyEdgeSpec g s with
        | Except.error e => (g, Except.error e)
        | Except.ok (r, g2) =>
          match bulk_add_edges g2 rest with
          | (g3, Except.ok rs2) => (g3, Except.ok (r :: rs2))
          | (g3, Except.error e) => (g3, Except.error e)) = _
      rw [ha]
    rw [key] at h
    cases hb : bulk_add_edges g2 rest with
    | mk g3 res =>
      rw [hb] at h
      cases res with
      | error e =>
        have := congrArg Prod.snd h
        exact absurd this (by simp)
      | ok rs2 =>
        have h1 := congrArg Prod.fst h
        have h2 := congrArg Prod.snd h
        simp at h1 h2
        exact ⟨r, g2, rs2, rfl, by rw [hb, h1], h2.symm⟩

theorem bulk_add_nodes_nil_ok {g g' : StateGraph} {rs : List NodeAddResult}
    (h : bulk_add_nodes g [] = (g', .ok rs)) : g' = g ∧ rs = [] := by
  unfold bulk_add_nodes at h
  have h1 := congrArg Prod.fst h
  have h2 := congrArg Prod.snd h
  simp at h1 h2
  exact ⟨h1.symm, h2⟩

theorem bulk_add_edges_nil_ok {g g' : StateGraph} {rs : List EdgeStatusResult}
    (h : bulk_add_edges g [] = (g', .ok rs)) : g' = g ∧ rs = [] := by
  unfold bulk_add_edges at h
  have h1 := congrArg Prod.fst h
  have h2 := congrArg Prod.snd h
  simp at h1 h2
  exact ⟨h1.symm, h2⟩

theorem bulk_add_nodes_fail_after (pre : List NodeSpec) :
    ∀ (g g₁ : StateGraph) (x : NodeSpec) (post : List NodeSpec)
      (rs : List NodeAddResult) (e : GraphErr),
    bulk_add_nodes g pre = (g₁, .ok rs) → applyNodeSpec g₁ x = .error e →
    bulk_add_nodes g (pre ++ x :: post) = (g₁, .error e) := by
  induction pre with
  | nil =>
    intro g g₁ x post rs e hok hx
    obtain ⟨rfl, -⟩ := bulk_add_nodes_nil_ok hok
    show bulk_add_nodes g₁ (x :: post) = (g₁, .error e)
    unfold bulk_add_nodes
    rw [hx]
  | cons s rest ih =>
    intro g g₁ x post rs e hok hx
    obtain ⟨r, g2, rs2, ha, hb, -⟩ := bulk_add_nodes_cons_ok hok
    have key : bulk_add_nodes g (s :: (rest ++ x :: post))
        = match bulk_add_nodes g2 (rest ++ x :: post) with
          | (g3, Except.ok rs3) => (g3, Except.ok (r :: rs3))
          | (g3, Except.error e) => (g3, Except.error e) := by
      show (match applyNodeSpec g s with
        | Except.error e => (g, Except.error e)
        | Except.ok (r, g2) =>
          match bulk_add_nodes g2 (rest ++ x :: post) with
          | (g3, Except.ok rs3) => (g3, Except.ok (r :: rs3))
          | (g3, Except.error e) => (g3, Except.error e)) = _
      rw [ha]
    show bulk_add_nodes g (s :: (rest ++ x :: post)) = (g₁, Except.error e)
    rw [key, ih g2 g₁ x post rs2 e hb hx]

theorem bulk_add_edges_fail_after (pre : List EdgeSpec) :
    ∀ (g g₁ : StateGraph) (x : EdgeSpec) (post : List EdgeSpec)
      (rs : List EdgeStatusResult) (e : GraphErr),
    bulk_add_edges g pre = (g₁, .ok rs) → applyEdgeSpec g₁ x = .error e →
    bulk_add_edges g (pre ++ x :: post) = (g₁, .error e) := by
  induction pre with
  | nil =>
    intro g g₁ x post rs e hok hx
    obtain ⟨rfl, -⟩ := bulk_add_edges_nil_ok hok
    show bulk_add_edges g₁ (x :: post) = (g₁, .error e)
    unfold bulk_add_edges
    rw [hx]
  | cons s rest ih =>
    intro g g₁ x post rs e hok hx
    obtain ⟨r, g2, rs2, ha, hb, -⟩ := bulk_add_edges_cons_ok hok
    have key : bulk_add_edges g (s :: (rest ++ x :: post))
        = match bulk_add_edges g2 (rest ++ x :: post) with
          | (g3, Except.ok rs3) => (g3, Except.ok (r :: rs3))
          | (g3, Except.error e) => (g3, Except.error e) := by
      show (match applyEdgeSpec g s with
        | Except.error e => (g, Except.error e)
        | Except.ok (r, g2) =>
          match bulk_add_edges g2 (rest ++ x :: post) with
          | (g3, Except.ok rs3) => (g3, Except.ok (r :: rs3))
          | (g3, Except.error e) => (g3, Except.error e)) = _
      rw [ha]
    show bulk_add_edges g (s :: (rest ++ x :: post)) = (g₁, Except.error e)
    rw [key, ih g2 g₁ x post rs2 e hb hx]

theorem bulk_add_nodes_ok_results (items : List NodeSpec) :
    ∀ (g g' : StateGraph) (rs : List NodeAddResult),
    bulk_add_nodes g items = (g', .ok rs) →
    rs = items.map (fun s => ⟨s.node_id, s.node_type, "added"⟩) := by
  induction items with
  | nil =>
    intro g g' rs hok
    exact (bulk_add_nodes_nil_ok hok).2
  | cons s rest ih =>
    intro g g' rs hok
    obtain ⟨r, g2, rs2, ha, hb, hrs⟩ := bulk_add_nodes_cons_ok hok
    rw [hrs, applyNodeSpec_ok_result ha, ih g2 g' rs2 hb]
    rfl

theorem bulk_add_edges_ok_results (items : List EdgeSpec) :
    ∀ (g g' : StateGraph) (rs : List EdgeStatusResult),
    bulk_add_edges g items = (g', .ok rs) →
    rs = items.map (fun s => ⟨s.from_node, s.to_node, "added"⟩) := by
  induction items with
  | nil =>
    intro g g' rs hok
    exact (bulk_add_edges_nil_ok hok).2
  | cons s rest ih =>
    intro g g' rs hok
    obtain ⟨r, g2, rs2, ha, hb, hrs⟩ := bulk_add_edges_cons_ok hok
    rw [hrs, applyEdgeSpec_ok_result ha, ih g2 g' rs2 hb]
    rfl

/-- C9.  When a `bulk_add_nodes` or `bulk_add_edges` call fails at
position i (the prefix before i succeeded and item i raises), the final
state is exactly the state after the successful prefix (earlier items
remain applied, no rollback) and no item at or after position i is
applied; a successful bulk call returns the per-item confirmation records
in input order. -/
theorem claim_C9_bulk_partial_failure :
    (∀ (g g₁ : StateGraph) (pre : List NodeSpec) (x : NodeSpec)
        (post : List NodeSpec) (rs : List NodeAddResult) (e : GraphErr),
      bulk_add_nodes g pre = (g₁, .ok rs) → applyNodeSpec g₁ x = .error e →
      bulk_add_nodes g (pre ++ x :: post) = (g₁, .error e)) ∧
    (∀ (g g' : StateGraph) (items : List NodeSpec) (rs : List NodeAddResult),
      bulk_add_nodes g items = (g', .ok rs) →
      rs = items.map (fun s => ⟨s.node_id, s.node_type, "added"⟩)) ∧
    (∀ (g g₁ : StateGraph) (pre : List EdgeSpec) (x : EdgeSpec)
        (post : List EdgeSpec) (rs : List EdgeStatusResult) (e : GraphErr),
      bulk_add_edges g pre = (g₁, .ok rs) → applyEdgeSpec g₁ x = .error e →
      bulk_add_edges g (pre ++ x :: post) = (g₁, .error e)) ∧
    (∀ (g g' : StateGraph) (items : List EdgeSpec) (rs : List EdgeStatusResult),
      bulk_add_edges g items = (g', .ok rs) →
      rs = items.map (fun s => ⟨s.from_node, s.to_node, "added"⟩)) := by
  refine ⟨?_, ?_, ?_, ?_⟩
  · intro g g₁ pre x post rs e h1 h2
    exact bulk_add_nodes_fail_after pre g g₁ x post rs e h1 h2
  · intro g g' items rs h
    exact bulk_add_nodes_ok_results items g g' rs h
  · intro g g₁ pre x post rs e h1 h2
    exact bulk_add_edges_fail_after pre g g₁ x post rs e h1 h2
  · intro g g' items rs h
    exact bulk_add_edges_ok_results items g g' rs h

/-- Witness for C9: a bulk node call that fails on its second item (a
duplicate id) keeps the first item applied and never applies the third;
and a fully successful bulk edge call returns confirmations in order. -/
theorem claim_C9_witness :
    (bulk_add_nodes (StateGraph.empty "g")
        [⟨"A", "action", none, none, none, none⟩,
         ⟨"A", "decision", none, none, none, none⟩,
         ⟨"C", "action", none, none, none, none⟩]
      = (StateGraph.mk "g" [("A", ⟨"action", "A", [], none, none⟩)] [],
         .error (.nodeExists "A"))) ∧
    (∀ (g' : StateGraph) (rs : List EdgeStatusResult),
      bulk_add_edges (StateGraph.mk "g"
          [("A", ⟨"action", "A", [], none, none⟩),
           ("B", ⟨"action", "B", [], none, none⟩)] [])
        [⟨"A", "B", 0, none, none⟩, ⟨"B", "A", 1, none, none⟩]
        = (g', .ok rs) →
      rs = [⟨"A", "B", "added"⟩, ⟨"B", "A", "added"⟩]) := by
  constructor
  · have := claim_C9_bulk_partial_failure.1 (StateGraph.empty "g")
      (StateGraph.mk "g" [("A", ⟨"action", "A", [], none, none⟩)] [])
      [⟨"A", "action", none, none, none, none⟩]
      ⟨"A", "decision", none, none, none, none⟩
      [⟨"C", "action", none, none, none, none⟩]
      [⟨"A", "action", "added"⟩] (.nodeExists "A") (by rfl) (by rfl)
    exact this
  · intro g' rs h
    exact claim_C9_bulk_partial_failure.2.2.2 _ g' _ rs h

/-! Claim C10: the method shadowing and the payload shapes of get_node
versus list_nodes.  In Python, the second textual definition of a method
in a class body rebinds the name; `get_node` here embeds the second
(effective) definition, `get_node_v1` the first (shadowed) one. -/
theorem NodeAttrs_toDict_keys (a : NodeAttrs) :
    ¬ "node_id" ∈ a.toDict.map Prod.fst := by
  unfold NodeAttrs.toDict
  cases hp : a.phase <;> cases ht : a.tool <;> simp

theorem NodeRecord_toDict_node_id (r : NodeRecord) :
    r.toDict.find? (fun q => q.1 == "node_id")
      = some ("node_id", .str r.node_id) := by
  unfold NodeRecord.toDict
  rw [List.find?_append]
  have h1 : r.attrs.toDict.find? (fun q => q.1 == "node_id") = none := by
    rw [List.find?_eq_none]
    intro q hq
    intro hcontra
    refine NodeAttrs_toDict_keys r.attrs ?_
    refine List.mem_map.mpr ⟨q, hq, ?_⟩
    simpa using hcontra
  rw [h1]
  rfl

theorem get_node_eq_of_lookup {g : StateGraph} {i : String} {a : NodeAttrs}
    (h : g.lookupNode i = some a) : g.get_node i = .ok a := by
  unfold StateGraph.get_node
  rw [h]

theorem get_node_v1_eq_of_lookup {g : StateGraph} {i : String} {a : NodeAttrs}
    (h : g.lookupNode i = some a) : g.get_node_v1 i = .ok ⟨i, a⟩ := by
  unfold StateGraph.get_node_v1
  rw [h]

/-- C10 counterexample.  The claim's premise that every `StateGraph`
method is textually defined twice in the class body is false: the class
body defines `create_graph` (line 17) and `get_execution_sequence`
(line 328) exactly once each, so the universally quantified premise
fails at those two method names. -/
theorem claim_C10_counterexample :
    ¬ (∀ nm ∈ stateGraphClassDefs.map Prod.fst,
        stateGraphClassDefs.countP (fun p => p.1 == nm) = 2) ∧
    "get_execution_sequence" ∈ stateGraphClassDefs.map Prod.fst ∧
    stateGraphClassDefs.countP
      (fun p => p.1 == "get_execution_sequence") = 1 ∧
    "create_graph" ∈ stateGraphClassDefs.map Prod.fst ∧
    stateGraphClassDefs.countP (fun p => p.1 == "create_graph") = 1 := by
  decide

/-- C10 as amended.  Most, but not all, `StateGraph` methods are
textually defined twice in the class body: `create_graph` and
`get_execution_sequence` are defined exactly once, while the other
fourteen methods are each defined twice, so the class body has no method
names beyond these sixteen; for the doubled names only the later
definition is in effect (a later `def` of the same name rebinds the
class attribute, the earlier one is never callable).  Because the later
`get_node` definition is the effective one, `get_node` on a present node
returns exactly the stored attribute mapping, whose dict has no
"node_id" key; every record returned by `list_nodes` is a stored node's
attribute dict with a "node_id" key embedded (holding the node's id);
and the shadowed first definition of `get_node` would instead have
returned the payload with the "node_id" key embedded. -/
theorem claim_C10_get_node_shapes :
    (stateGraphClassDefs.countP (fun p => p.1 == "create_graph") = 1 ∧
      stateGraphClassDefs.countP
        (fun p => p.1 == "get_execution_sequence") = 1) ∧
    (∀ nm ∈ shadowedMethodNames,
      stateGraphClassDefs.countP (fun p => p.1 == nm) = 2) ∧
    (∀ nm ∈ stateGraphClassDefs.map Prod.fst,
      nm = "create_graph" ∨ nm = "get_execution_sequence" ∨
        nm ∈ shadowedMethodNames) ∧
    (∀ (g : StateGraph) (i : String) (a : NodeAttrs),
      g.lookupNode i = some a →
      g.get_node i = .ok a ∧ ¬ "node_id" ∈ a.toDict.map Prod.fst) ∧
    (∀ g : StateGraph,
      g.list_nodes = g.nodes.map (fun p => ⟨p.1, p.2⟩) ∧
      ∀ r ∈ g.list_nodes,
        r.toDict.find? (fun q => q.1 == "node_id")
          = some ("node_id", .str r.node_id)) ∧
    (∀ (g : StateGraph) (i : String) (a : NodeAttrs),
      g.lookupNode i = some a →
      g.get_node_v1 i = .ok ⟨i, a⟩ ∧
      (NodeRecord.toDict ⟨i, a⟩).find? (fun q => q.1 == "node_id")
        = some ("node_id", .str i)) := by
  refine ⟨by decide, by decide, by decide, ?_, ?_, ?_⟩
  · intro g i a h
    exact ⟨get_node_eq_of_lookup h, NodeAttrs_toDict_keys a⟩
  · intro g
    exact ⟨rfl, fun r _ => NodeRecord_toDict_node_id r⟩
  · intro g i a h
    exact ⟨get_node_v1_eq_of_lookup h, NodeRecord_toDict_node_id ⟨i, a⟩⟩

/-- Witness for C10 on a concrete one-node graph. -/
theorem claim_C10_witness :
    ((StateGraph.mk "g" [("A", ⟨"action", "lbl", [], some 2, none⟩)] []).get_node
        "A" = .ok ⟨"action", "lbl", [], some 2, none⟩) ∧
    ((StateGraph.mk "g" [("A", ⟨"action", "lbl", [], some 2, none⟩)] []).get_node_v1
        "A" = .ok ⟨"A", ⟨"action", "lbl", [], some 2, none⟩⟩) := by
  constructor
  · exact (claim_C10_get_node_shapes.2.2.2.1
      (StateGraph.mk "g" [("A", ⟨"action", "lbl", [], some 2, none⟩)] [])
      "A" ⟨"action", "lbl", [], some 2, none⟩ (by rfl)).1
  · exact (claim_C10_get_node_shapes.2.2.2.2.2
      (StateGraph.mk "g" [("A", ⟨"action", "lbl", [], some 2, none⟩)] [])
      "A" ⟨"action", "lbl", [], some 2, none⟩ (by rfl)).1

theorem countOcc_append {α : Type} [DecidableEq α] (x : α) (l1 l2 : List α) :
    countOcc x (l1 ++ l2) = countOcc x l1 + countOcc x l2 := by
  unfold countOcc
  rw [List.countP_append]

theorem countOcc_map_injective {α β : Type} [DecidableEq α] [DecidableEq β]
    {f : α → β} (hf : Function.Injective f) (x : α) (l : List α) :
    countOcc (f x) (l.map f) = countOcc x l := by
  unfold countOcc
  rw [List.countP_map]
  refine List.countP_congr ?_
  intro y _
  show decide (f y = f x) = true ↔ decide (y = x) = true
  constructor
  · intro h
    exact decide_eq_true (hf (of_decide_eq_true h))
  · intro h
    exact decide_eq_true (congrArg f (of_decide_eq_true h))

theorem countOcc_filter_pos {α : Type} [DecidableEq α] {p : α → Bool} {x : α}
    (hx : p x = true) (l : List α) : countOcc x (l.filter p) = countOcc x l := by
  induction l with
  | nil => rfl
  | cons hd tl ih =>
    by_cases hp : p hd = true
    · rw [List.filter_cons_of_pos hp]
      unfold countOcc at ih ⊢
      rw [List.countP_cons, List.countP_cons, ih]
    · rw [List.filter_cons_of_neg (by simpa using hp)]
      have hne : ¬ hd = x := fun hc => hp (by rw [hc]; exact hx)
      unfold countOcc at ih ⊢
      rw [List.countP_cons, ih]
      rw [decide_eq_false hne]
      simp

theorem countOcc_filter_neg {α : Type} [DecidableEq α] {p : α → Bool} {x : α}
    (hx : ¬ p x = true) (l : List α) : countOcc x (l.filter p) = 0 := by
  unfold countOcc
  rw [List.countP_eq_zero]
  intro a ha
  have hpa := (List.mem_filter.mp ha).2
  intro hax
  refine hx ?_
  rw [← of_decide_eq_true hax]
  exact hpa

theorem countOcc_eq_one_of_nodup {α : Type} [DecidableEq α] {x : α}
    {l : List α} (hn : l.Nodup) (hm : x ∈ l) : countOcc x l = 1 := by
  induction l with
  | nil => exact absurd hm (List.not_mem_nil x)
  | cons hd tl ih =>
    rw [List.nodup_cons] at hn
    unfold countOcc
    rw [List.countP_cons]
    rcases List.mem_cons.mp hm with h | h
    · have hnot : ¬ x ∈ tl := fun hc => hn.1 (h ▸ hc)
      have hzero : countOcc x tl = 0 := by
        unfold countOcc
        rw [List.countP_eq_zero]
        intro a ha hax
        exact hnot (by rw [of_decide_eq_true hax] at ha; exact ha)
      unfold countOcc at hzero
      rw [hzero, decide_eq_true h.symm]
      simp
    · have h1 : countOcc x tl = 1 := ih hn.2 h
      unfold countOcc at h1
      rw [h1, decide_eq_false (fun hc => hn.1 (by rw [hc]; exact h))]
      simp

theorem countOcc_eq_zero_iff {α : Type} [DecidableEq α] {x : α} {l : List α} :
    countOcc x l = 0 ↔ ¬ x ∈ l := by
  unfold countOcc
  rw [List.countP_eq_zero]
  constructor
  · intro h hmem
    exact h x hmem (decide_eq_true rfl)
  · intro h a ha hax
    refine h ?_
    rw [← of_decide_eq_true hax]
    exact ha

theorem edgeRecord_of_entry_injective : Function.Injective
    (fun (e : (String × String) × EdgeAttrs) =>
      (⟨e.2, e.1.1, e.1.2⟩ : EdgeRecord)) := by
  intro e1 e2 h
  obtain ⟨⟨u1, v1⟩, a1⟩ := e1
  obtain ⟨⟨u2, v2⟩, a2⟩ := e2
  simp at h
  obtain ⟨ha, hu, hv⟩ := h
  rw [ha, hu, hv]

/-- C8 counterexample.  On the one-node graph with a self-loop, the
filtered `get_edges` returns the self-loop record twice (the source
concatenates `in_edges` and `out_edges`, and a self-loop is in both), so
the claim's "each incident edge occurring exactly once in the result,
including a self-loop" fails. -/
theorem claim_C8_counterexample :
    ((StateGraph.mk "g" [("n", ⟨"action", "n", [], none, none⟩)]
        [(("n", "n"), ⟨0, none, []⟩)]).get_edges (some "n")
      = .ok [⟨⟨0, none, []⟩, "n", "n"⟩, ⟨⟨0, none, []⟩, "n", "n"⟩]) ∧
    ¬ countOcc (⟨⟨0, none, []⟩, "n", "n"⟩ : EdgeRecord)
        [⟨⟨0, none, []⟩, "n", "n"⟩, ⟨⟨0, none, []⟩, "n", "n"⟩] = 1 := by
  exact ⟨by rfl, by decide⟩

/-- C8 as amended.  For every present node id (on a state whose edge dict
keys are unique, as in every reachable state), `get_edges(nodeId)` returns
the incoming edges followed by the outgoing edges, each record embedding
both endpoints; an edge is in the result exactly when it is incident to
the node; an incident edge with distinct endpoints occurs exactly once,
while a self-loop on the node occurs exactly twice; `get_edges` with no
filter returns every edge in the graph exactly once, in stored order. -/
theorem claim_C8_get_edges_union (g : StateGraph) (i : String)
    (hne : (g.edges.map Prod.fst).Nodup) (hi : g.hasNode i = true) :
    (g.get_edges none = .ok (g.edges.map (fun e => ⟨e.2, e.1.1, e.1.2⟩))) ∧
    ∃ l, g.get_edges (some i) = .ok l ∧
      ∀ (u v : String) (a : EdgeAttrs), ((u, v), a) ∈ g.edges →
        (((⟨a, u, v⟩ : EdgeRecord) ∈ l) ↔ (u = i ∨ v = i)) ∧
        (u = i → v = i → countOcc (⟨a, u, v⟩ : EdgeRecord) l = 2) ∧
        ((u = i ∨ v = i) → ¬ (u = i ∧ v = i) →
          countOcc (⟨a, u, v⟩ : EdgeRecord) l = 1) := by
  have hedges : g.edges.Nodup := List.Nodup.of_map _ hne
  constructor
  · rfl
  refine ⟨g.inEdgeRecords i ++ g.outEdgeRecords i, ?_, ?_⟩
  · show (if ¬ g.hasNode i = true then Except.error (GraphErr.nodeMissing i)
      else Except.ok (g.inEdgeRecords i ++ g.outEdgeRecords i))
      = Except.ok (g.inEdgeRecords i ++ g.outEdgeRecords i)
    rw [if_neg (by simp [hi])]
  intro u v a hmem
  have hrec : (⟨a, u, v⟩ : EdgeRecord)
      = (fun (e : (String × String) × EdgeAttrs) =>
          (⟨e.2, e.1.1, e.1.2⟩ : EdgeRecord)) ((u, v), a) := rfl
  have hcount_in : countOcc (⟨a, u, v⟩ : EdgeRecord) (g.inEdgeRecords i)
      = if v = i then 1 else 0 := by
    unfold StateGraph.inEdgeRecords
    rw [hrec, countOcc_map_injective edgeRecord_of_entry_injective]
    by_cases hv : v = i
    · rw [if_pos hv]
      rw [countOcc_filter_pos (by simpa using hv)]
      exact countOcc_eq_one_of_nodup hedges hmem
    · rw [if_neg hv]
      exact countOcc_filter_neg (by simpa using hv) g.edges
  have hcount_out : countOcc (⟨a, u, v⟩ : EdgeRecord) (g.outEdgeRecords i)
      = if u = i then 1 else 0 := by
    unfold StateGraph.outEdgeRecords
    rw [hrec, countOcc_map_injective edgeRecord_of_entry_injective]
    by_cases hu : u = i
    · rw [if_pos hu]
      rw [countOcc_filter_pos (by simpa using hu)]
      exact countOcc_eq_one_of_nodup hedges hmem
    · rw [if_neg hu]
      exact countOcc_filter_neg (by simpa using hu) g.edges
  have hcount : countOcc (⟨a, u, v⟩ : EdgeRecord)
        (g.inEdgeRecords i ++ g.outEdgeRecords i)
      = (if v = i then 1 else 0) + (if u = i then 1 else 0) := by
    rw [countOcc_append, hcount_in, hcount_out]
  refine ⟨?_, ?_, ?_⟩
  · constructor
    · intro hin
      by_contra hcon
      push_neg at hcon
      have hzero : countOcc (⟨a, u, v⟩ : EdgeRecord)
          (g.inEdgeRecords i ++ g.outEdgeRecords i) = 0 := by
        rw [hcount, if_neg hcon.2, if_neg hcon.1]
      exact absurd hin (countOcc_eq_zero_iff.mp hzero)
    · intro hui
      by_contra hcon
      have hzero := countOcc_eq_zero_iff.mpr hcon
      rw [hcount] at hzero
      rcases hui with h | h
      · rw [if_pos h] at hzero
        omega
      · rw [if_pos h] at hzero
        omega
  · intro hu hv
    rw [hcount, if_pos hv, if_pos hu]
  · intro hui hnot
    rcases hui with h | h
    · rw [hcount, if_neg (fun hv => hnot ⟨h, hv⟩), if_pos h]
    · rw [hcount, if_pos h, if_neg (fun hu => hnot ⟨hu, h⟩)]

/-- Witness for C8: a graph with a self-loop on n, an incoming edge from m
and an unrelated edge; the self-loop counts twice, the ordinary incident
edge once. -/
theorem claim_C8_witness :
    ∃ l, (StateGraph.mk "g"
        [("n", ⟨"action", "n", [], none, none⟩),
         ("m", ⟨"action", "m", [], none, none⟩)]
        [(("n", "n"), ⟨0, none, []⟩), (("m", "n"), ⟨1, none, []⟩),
         (("m", "m"), ⟨2, none, []⟩)]).get_edges (some "n") = .ok l ∧
      countOcc (⟨⟨0, none, []⟩, "n", "n"⟩ : EdgeRecord) l = 2 ∧
      countOcc (⟨⟨1, none, []⟩, "m", "n"⟩ : EdgeRecord) l = 1 ∧
      ¬ (⟨⟨2, none, []⟩, "m", "m"⟩ : EdgeRecord) ∈ l := by
  obtain ⟨-, l, hok, hprop⟩ := claim_C8_get_edges_union (StateGraph.mk "g"
        [("n", ⟨"action", "n", [], none, none⟩),
         ("m", ⟨"action", "m", [], none, none⟩)]
        [(("n", "n"), ⟨0, none, []⟩), (("m", "n"), ⟨1, none, []⟩),
         (("m", "m"), ⟨2, none, []⟩)]) "n" (by decide) (by decide)
  refine ⟨l, hok, ?_, ?_, ?_⟩
  · exact (hprop "n" "n" ⟨0, none, []⟩ (by decide)).2.1 rfl rfl
  · exact (hprop "m" "n" ⟨1, none, []⟩ (by simp)).2.2 (Or.inr rfl)
      (by rintro ⟨h, -⟩; exact absurd h (by decide))
  · intro hcon
    have := ((hprop "m" "m" ⟨2, none, []⟩ (by simp)).1).mp hcon
    rcases this with h | h <;> exact absurd h (by decide)

/-! Claims C2 and C3: the execution-sequence walk.  Lemmas about one step
of the walk, the minimum-order edge selection, and fuel stability
(termination). -/
theorem execWalk_stop_of_visited (g : StateGraph) (u : Bool) (fuel : Nat)
    (visited : List String) (current : String)
    (h : visited.contains current = true) :
    StateGraph.execWalk g u fuel visited current = [] := by
  cases fuel with
  | zero => rfl
  | succ f =>
    unfold StateGraph.execWalk
    rw [if_pos (by rw [h]; simp)]

theorem execWalk_stop_of_empty (g : StateGraph) (u : Bool) (fuel : Nat)
    (visited : List String) :
    StateGraph.execWalk g u fuel visited "" = [] := by
  cases fuel with
  | zero => rfl
  | succ f =>
    unfold StateGraph.execWalk
    rw [if_pos (by simp)]

theorem edgeLE_trans (a b c : (String × String) × EdgeAttrs)
    (hab : StateGraph.edgeLE a b) (hbc : StateGraph.edgeLE b c) :
    StateGraph.edgeLE a c := by
  unfold StateGraph.edgeLE at hab hbc ⊢
  have h1 := of_decide_eq_true hab
  have h2 := of_decide_eq_true hbc
  exact decide_eq_true (le_trans h1 h2)

theorem edgeLE_total (a b : (String × String) × EdgeAttrs) :
    StateGraph.edgeLE a b || StateGraph.edgeLE b a := by
  unfold StateGraph.edgeLE
  rcases Int.le_total a.2.order b.2.order with h | h
  · rw [decide_eq_true h]
    simp
  · rw [decide_eq_true h]
    simp

theorem sortedOutgoing_head_min (g : StateGraph) (current : String)
    (hne : ¬ g.edges.filter (fun e => e.1.1 == current) = []) :
    ∃ e, (g.sortedOutgoing current).head? = some e ∧
      e ∈ g.edges.filter (fun e => e.1.1 == current) ∧
      ∀ e' ∈ g.edges.filter (fun e' => e'.1.1 == current),
        e.2.order ≤ e'.2.order := by
  have hperm := List.mergeSort_perm
    (g.edges.filter (fun e => e.1.1 == current)) StateGraph.edgeLE
  have hsorted := List.sorted_mergeSort edgeLE_trans edgeLE_total
    (g.edges.filter (fun e => e.1.1 == current))
  cases hms : (g.sortedOutgoing current) with
  | nil =>
    exfalso
    refine hne ?_
    have := hperm.symm
    unfold StateGraph.sortedOutgoing at hms
    rw [hms] at hperm
    exact (List.Perm.nil_eq hperm).symm
  | cons e rest =>
    refine ⟨e, rfl, ?_, ?_⟩
    · have : e ∈ g.sortedOutgoing current := by
        rw [hms]
        exact List.mem_cons_self e rest
      unfold StateGraph.sortedOutgoing at this
      exact List.mem_mergeSort.mp this
    · intro e' he'
      have hmem : e' ∈ g.sortedOutgoing current := by
        unfold StateGraph.sortedOutgoing
        exact List.mem_mergeSort.mpr he'
      rw [hms] at hmem
      rcases List.mem_cons.mp hmem with h | h
      · rw [h]
      · unfold StateGraph.sortedOutgoing at hms
        rw [hms] at hsorted
        have := (List.pairwise_cons.mp hsorted).1 e' h
        exact of_decide_eq_true this

theorem filter_unvisited_cons (c : String) (v : List String)
    (hv : v.contains c = false) (l : List String) :
    (l.filter (fun x => ! (c :: v).contains x)).length
      ≤ (l.filter (fun x => ! v.contains x)).length ∧
    (c ∈ l → (l.filter (fun x => ! (c :: v).contains x)).length
      < (l.filter (fun x => ! v.contains x)).length) := by
  induction l with
  | nil => exact ⟨Nat.le_refl 0, fun h => absurd h (List.not_mem_nil c)⟩
  | cons hd tl ih =>
    by_cases hdc : hd = c
    · have hnew : (! (c :: v).contains hd) = false := by
        rw [hdc, List.contains_cons]
        simp
      have hold : (! v.contains hd) = true := by
        rw [hdc, hv]
        rfl
      rw [List.filter_cons_of_neg (by rw [hnew]; exact Bool.false_ne_true),
        List.filter_cons_of_pos (by exact hold)]
      constructor
      · have := ih.1
        simp only [List.length_cons]
        omega
      · intro _
        have := ih.1
        simp only [List.length_cons]
        omega
    · have hagree : (! (c :: v).contains hd) = (! v.contains hd) := by
        rw [List.contains_cons]
        have : (hd == c) = false := by
          simpa using hdc
        rw [this]
        rfl
      cases hpred : (! v.contains hd) with
      | true =>
        rw [List.filter_cons_of_pos (by rw [hagree]; exact hpred),
          List.filter_cons_of_pos (by exact hpred)]
        constructor
        · simp only [List.length_cons]
          omega
        · intro hcl
          have hctl : c ∈ tl := by
            rcases List.mem_cons.mp hcl with h | h
            · exact absurd h.symm hdc
            · exact h
          have := ih.2 hctl
          simp only [List.length_cons]
          omega
      | false =>
        rw [List.filter_cons_of_neg (by rw [hagree, hpred]; exact Bool.false_ne_true),
          List.filter_cons_of_neg (by rw [hpred]; exact Bool.false_ne_true)]
        refine ⟨ih.1, ?_⟩
        intro hcl
        have hctl : c ∈ tl := by
          rcases List.mem_cons.mp hcl with h | h
          · exact absurd h.symm hdc
          · exact h
        exact ih.2 hctl

theorem freshCount_cons_lt {g : StateGraph} {v : List String} {c : String}
    (hc : c ∈ g.nodes.map Prod.fst) (hv : v.contains c = false) :
    freshCount g (c :: v) < freshCount g v :=
  (filter_unvisited_cons c v hv (g.nodes.map Prod.fst)).2 hc

/-! Fully reduced one-step equations for the walk, one per control path. -/
theorem execWalk_stop_of_cond (g : StateGraph) (u : Bool) (fuel : Nat)
    (visited : List String) (current : String)
    (h : (current == "" || visited.contains current) = true) :
    StateGraph.execWalk g u (fuel + 1) visited current = [] := by
  unfold StateGraph.execWalk
  rw [if_pos h]

theorem execWalk_stop_of_lookup_none (g : StateGraph) (u : Bool) (fuel : Nat)
    (visited : List String) (current : String)
    (hstop : (current == "" || visited.contains current) = false)
    (hlk : g.lookupNode current = none) :
    StateGraph.execWalk g u (fuel + 1) visited current = [] := by
  unfold StateGraph.execWalk
  rw [if_neg (by rw [hstop]; exact Bool.false_ne_true), hlk]

theorem execWalk_step_decision (g : StateGraph) (u : Bool) (fuel : Nat)
    (visited : List String) (current : String) (a : NodeAttrs)
    (hstop : (current == "" || visited.contains current) = false)
    (hlk : g.lookupNode current = some a)
    (hdec : (u && (a.node_type == "decision")) = true) :
    StateGraph.execWalk g u (fuel + 1) visited current = [⟨current, a⟩] := by
  unfold StateGraph.execWalk
  rw [if_neg (by rw [hstop]; exact Bool.false_ne_true), hlk]
  show (if (u && (a.node_type == "decision")) = true then [(⟨current, a⟩ : NodeRecord)]
    else match (g.sortedOutgoing current).head? with
      | none => [⟨current, a⟩]
      | some e =>
        ⟨current, a⟩ :: StateGraph.execWalk g u fuel (current :: visited) e.1.2)
    = [(⟨current, a⟩ : NodeRecord)]
  rw [if_pos hdec]

theorem execWalk_step_noout (g : StateGraph) (u : Bool) (fuel : Nat)
    (visited : List String) (current : String) (a : NodeAttrs)
    (hstop : (current == "" || visited.contains current) = false)
    (hlk : g.lookupNode current = some a)
    (hdec : (u && (a.node_type == "decision")) = false)
    (hhead : (g.sortedOutgoing current).head? = none) :
    StateGraph.execWalk g u (fuel + 1) visited current = [⟨current, a⟩] := by
  unfold StateGraph.execWalk
  rw [if_neg (by rw [hstop]; exact Bool.false_ne_true), hlk]
  show (if (u && (a.node_type == "decision")) = true then [(⟨current, a⟩ : NodeRecord)]
    else match (g.sortedOutgoing current).head? with
      | none => [⟨current, a⟩]
      | some e =>
        ⟨current, a⟩ :: StateGraph.execWalk g u fuel (current :: visited) e.1.2)
    = [(⟨current, a⟩ : NodeRecord)]
  rw [if_neg (by rw [hdec]; exact Bool.false_ne_true), hhead]

/-- The successor-fuel unfolding of the walk, as a propositional equation
whose right-hand side keeps the recursive call unexpanded. -/
theorem execWalk_succ (g : StateGraph) (u : Bool) (fuel : Nat)
    (visited : List String) (current : String) :
    StateGraph.execWalk g u (fuel + 1) visited current
      = if (current == "" || visited.contains current) = true then []
        else match g.lookupNode current with
          | none => []
          | some a =>
            if (u && (a.node_type == "decision")) = true then [⟨current, a⟩]
            else match (g.sortedOutgoing current).head? with
              | none => [⟨current, a⟩]
              | some e =>
                ⟨current, a⟩ ::
                  StateGraph.execWalk g u fuel (current :: visited) e.1.2 := by
  rfl

theorem execWalk_step_next (g : StateGraph) (u : Bool) (fuel : Nat)
    (visited : List String) (current : String) (a : NodeAttrs)
    (e : (String × String) × EdgeAttrs)
    (hstop : (current == "" || visited.contains current) = false)
    (hlk : g.lookupNode current = some a)
    (hdec : (u && (a.node_type == "decision")) = false)
    (hhead : (g.sortedOutgoing current).head? = some e) :
    StateGraph.execWalk g u (fuel + 1) visited current
      = ⟨current, a⟩ :: StateGraph.execWalk g u fuel (current :: visited) e.1.2 := by
  rw [execWalk_succ]
  rw [if_neg (by rw [hstop]; exact Bool.false_ne_true), hlk]
  show (if (u && (a.node_type == "decision")) = true then [(⟨current, a⟩ : NodeRecord)]
    else match (g.sortedOutgoing current).head? with
      | none => [⟨current, a⟩]
      | some e =>
        ⟨current, a⟩ :: StateGraph.execWalk g u fuel (current :: visited) e.1.2)
    = ⟨current, a⟩ :: StateGraph.execWalk g u fuel (current :: visited) e.1.2
  rw [if_neg (by rw [hdec]; exact Bool.false_ne_true), hhead]

theorem execWalk_fuel_stable (g : StateGraph) (u : Bool) :
    ∀ (f1 f2 : Nat) (visited : List String) (current : String),
      freshCount g visited < f1 → freshCount g visited < f2 →
      StateGraph.execWalk g u f1 visited current
        = StateGraph.execWalk g u f2 visited current := by
  intro f1
  induction f1 with
  | zero =>
    intro f2 v c h1 h2
    omega
  | succ f1' ih =>
    intro f2 v c h1 h2
    cases f2 with
    | zero => omega
    | succ f2' =>
      cases hstop : (c == "" || v.contains c) with
      | true =>
        rw [execWalk_stop_of_cond g u f1' v c hstop,
          execWalk_stop_of_cond g u f2' v c hstop]
      | false =>
        cases hlk : g.lookupNode c with
        | none =>
          rw [execWalk_stop_of_lookup_none g u f1' v c hstop hlk,
            execWalk_stop_of_lookup_none g u f2' v c hstop hlk]
        | some a =>
          cases hdec : (u && (a.node_type == "decision")) with
          | true =>
            rw [execWalk_step_decision g u f1' v c a hstop hlk hdec,
              execWalk_step_decision g u f2' v c a hstop hlk hdec]
          | false =>
            cases hhead : (g.sortedOutgoing c).head? with
            | none =>
              rw [execWalk_step_noout g u f1' v c a hstop hlk hdec hhead,
                execWalk_step_noout g u f2' v c a hstop hlk hdec hhead]
            | some e =>
              rw [execWalk_step_next g u f1' v c a e hstop hlk hdec hhead,
                execWalk_step_next g u f2' v c a e hstop hlk hdec hhead]
              have hcKeys : c ∈ g.nodes.map Prod.fst :=
                List.mem_map.mpr ⟨(c, a), StateGraph.lookupNode_mem hlk, rfl⟩
              have hvc : v.contains c = false := by
                cases hcv : v.contains c with
                | false => rfl
                | true =>
                  rw [hcv] at hstop
                  simp at hstop
              have hlt := freshCount_cons_lt hcKeys hvc
              rw [ih f2' (c :: v) e.1.2 (by omega) (by omega)]

theorem get_execution_sequence_eq (g : StateGraph) (s : String) (u : Bool)
    (hs : g.hasNode s = true) :
    g.get_execution_sequence s u
      = .ok (StateGraph.execWalk g u (g.nodes.length + 1) [] s) := by
  unfold StateGraph.get_execution_sequence
  rw [if_neg (by simp [hs])]

/-- C3.  The walk terminates on every graph (its result is stable once the
fuel reaches the node count plus one, so the while-loop runs boundedly
many iterations), the cycle guard is a hard stop that does not re-append
an already-visited node, and on the two-node cycle A-B-A with
untilDecision = false the sequence is exactly [A, B]. -/
theorem claim_C3_termination :
    (∀ (g : StateGraph) (u : Bool) (start : String) (extra : Nat),
      StateGraph.execWalk g u (g.nodes.length + 1 + extra) [] start
        = StateGraph.execWalk g u (g.nodes.length + 1) [] start) ∧
    (∀ (g : StateGraph) (u : Bool) (fuel : Nat) (visited : List String)
        (current : String), visited.contains current = true →
      StateGraph.execWalk g u fuel visited current = []) ∧
    ((StateGraph.mk "g"
        [("A", ⟨"action", "A", [], none, none⟩),
         ("B", ⟨"action", "B", [], none, none⟩)]
        [(("A", "B"), ⟨0, none, []⟩),
         (("B", "A"), ⟨0, none, []⟩)]).get_execution_sequence "A" false
      = .ok [⟨"A", ⟨"action", "A", [], none, none⟩⟩,
             ⟨"B", ⟨"action", "B", [], none, none⟩⟩]) := by
  refine ⟨?_, ?_, ?_⟩
  · intro g u start extra
    have hfc : freshCount g [] ≤ g.nodes.length := by
      unfold freshCount
      calc ((g.nodes.map Prod.fst).filter (fun x => ! ([] : List String).contains x)).length
          ≤ (g.nodes.map Prod.fst).length := List.length_filter_le _ _
        _ = g.nodes.length := List.length_map _ _
    exact execWalk_fuel_stable g u _ _ [] start (by omega) (by omega)
  · intro g u fuel visited current h
    exact execWalk_stop_of_visited g u fuel visited current h
  · simp [StateGraph.get_execution_sequence, StateGraph.execWalk, StateGraph.sortedOutgoing,
      StateGraph.lookupNode, StateGraph.hasNode, List.mergeSort, List.merge, StateGraph.edgeLE]

/-- Witness for C3: the cycle guard at a concrete already-visited node. -/
theorem claim_C3_witness :
    StateGraph.execWalk (StateGraph.mk "g"
      [("A", ⟨"action", "A", [], none, none⟩)] []) false 5 ["A"] "A" = [] :=
  claim_C3_termination.2.1
    (StateGraph.mk "g" [("A", ⟨"action", "A", [], none, none⟩)] [])
    false 5 ["A"] "A" (by decide)

/-- C2 counterexample.  A node whose id is the empty string is a legal,
present start node (`add_node` does not validate ids), yet the walk
returns the empty sequence without appending the start node's data: the
`while current and ...` guard treats the empty string as falsy.  The claim
promises that the start node's data is appended before any stop. -/
theorem claim_C2_counterexample :
    ((StateGraph.mk "g" [("", ⟨"action", "", [], none, none⟩)] []).hasNode ""
      = true) ∧
    ((StateGraph.mk "g"
        [("", ⟨"action", "", [], none, none⟩)] []).get_execution_sequence ""
        false = .ok []) ∧
    ¬ (([] : List NodeRecord).head?
        = some ⟨"", ⟨"action", "", [], none, none⟩⟩) := by
  exact ⟨rfl, rfl, by simp⟩

/-- C2 as amended.  For start and intermediate nodes with nonempty ids the
walk behaves as claimed: it appends the current node's full data, stops
right after appending a decision node when untilDecision is true, stops
when there is no outgoing edge, and otherwise advances along an outgoing
edge of minimum order (with the stable tie-break shown on a concrete
two-way tie); a node whose id is the empty string instead stops the walk
without being appended.  The worked A/B/C example behaves exactly as the
claim states. -/
theorem claim_C2_execution_sequence :
    ((StateGraph.mk "g"
        [("A", ⟨"action", "A", [], none, none⟩),
         ("B", ⟨"decision", "B", [], none, none⟩),
         ("C", ⟨"action", "C", [], none, none⟩)]
        [(("A", "B"), ⟨0, none, []⟩),
         (("B", "C"), ⟨0, none, []⟩)]).get_execution_sequence "A" true
      = .ok [⟨"A", ⟨"action", "A", [], none, none⟩⟩,
             ⟨"B", ⟨"decision", "B", [], none, none⟩⟩]) ∧
    ((StateGraph.mk "g"
        [("A", ⟨"action", "A", [], none, none⟩),
         ("B", ⟨"decision", "B", [], none, none⟩),
         ("C", ⟨"action", "C", [], none, none⟩)]
        [(("A", "B"), ⟨0, none, []⟩),
         (("B", "C"), ⟨0, none, []⟩)]).get_execution_sequence "A" false
      = .ok [⟨"A", ⟨"action", "A", [], none, none⟩⟩,
             ⟨"B", ⟨"decision", "B", [], none, none⟩⟩,
             ⟨"C", ⟨"action", "C", [], none, none⟩⟩]) ∧
    (∀ (g : StateGraph) (u : Bool) (fuel : Nat) (visited : List String)
        (current : String) (a : NodeAttrs),
      (current == "" || visited.contains current) = false →
      g.lookupNode current = some a →
      ((u = true → a.node_type = "decision" →
        StateGraph.execWalk g u (fuel + 1) visited current = [⟨current, a⟩]) ∧
       (g.edges.filter (fun e => e.1.1 == current) = [] →
        StateGraph.execWalk g u (fuel + 1) visited current = [⟨current, a⟩]) ∧
       ((u && (a.node_type == "decision")) = false →
        ¬ g.edges.filter (fun e => e.1.1 == current) = [] →
        ∃ e, e ∈ g.edges.filter (fun e' => e'.1.1 == current) ∧
          (∀ e' ∈ g.edges.filter (fun e' => e'.1.1 == current),
            e.2.order ≤ e'.2.order) ∧
          StateGraph.execWalk g u (fuel + 1) visited current
            = ⟨current, a⟩ ::
                StateGraph.execWalk g u fuel (current :: visited) e.1.2))) ∧
    ((StateGraph.mk "g"
        [("A", ⟨"action", "A", [], none, none⟩),
         ("P", ⟨"action", "P", [], none, none⟩),
         ("Q", ⟨"action", "Q", [], none, none⟩)]
        [(("A", "P"), ⟨0, none, []⟩),
         (("A", "Q"), ⟨0, none, []⟩)]).get_execution_sequence "A" false
      = .ok [⟨"A", ⟨"action", "A", [], none, none⟩⟩,
             ⟨"P", ⟨"action", "P", [], none, none⟩⟩]) := by
  refine ⟨?_, ?_, ?_, ?_⟩
  · simp [StateGraph.get_execution_sequence, StateGraph.execWalk, StateGraph.sortedOutgoing,
      StateGraph.lookupNode, StateGraph.hasNode, List.mergeSort, List.merge, StateGraph.edgeLE]
  · simp [StateGraph.get_execution_sequence, StateGraph.execWalk, StateGraph.sortedOutgoing,
      StateGraph.lookupNode, StateGraph.hasNode, List.mergeSort, List.merge, StateGraph.edgeLE]
  case refine_4 =>
    simp [StateGraph.get_execution_sequence, StateGraph.execWalk, StateGraph.sortedOutgoing,
      StateGraph.lookupNode, StateGraph.hasNode, List.mergeSort, List.merge, StateGraph.edgeLE]
  intro g u fuel visited current a hstop hlk
  refine ⟨?_, ?_, ?_⟩
  · intro hu hnt
    refine execWalk_step_decision g u fuel visited current a hstop hlk ?_
    rw [hu, hnt]
    rfl
  · intro hempty
    have hhead : (g.sortedOutgoing current).head? = none := by
      unfold StateGraph.sortedOutgoing
      rw [hempty, List.mergeSort_nil]
      rfl
    cases hdec : (u && (a.node_type == "decision")) with
    | true => exact execWalk_step_decision g u fuel visited current a hstop hlk hdec
    | false => exact execWalk_step_noout g u fuel visited current a hstop hlk hdec hhead
  · intro hdec hne
    obtain ⟨e, hhead, hmem, hmin⟩ := sortedOutgoing_head_min g current hne
    exact ⟨e, hmem, hmin,
      execWalk_step_next g u fuel visited current a e hstop hlk hdec hhead⟩

/-- Witness for C2: the general step lemma applied at the concrete A/B/C
graph, advancing from A to B along the only outgoing edge. -/
theorem claim_C2_witness :
    ∃ e, e ∈ ((StateGraph.mk "g"
        [("A", ⟨"action", "A", [], none, none⟩),
         ("B", ⟨"decision", "B", [], none, none⟩)]
        [(("A", "B"), ⟨0, none, []⟩)]).edges.filter (fun e' => e'.1.1 == "A")) ∧
      (∀ e' ∈ ((StateGraph.mk "g"
        [("A", ⟨"action", "A", [], none, none⟩),
         ("B", ⟨"decision", "B", [], none, none⟩)]
        [(("A", "B"), ⟨0, none, []⟩)]).edges.filter (fun e' => e'.1.1 == "A")),
        e.2.order ≤ e'.2.order) ∧
      StateGraph.execWalk (StateGraph.mk "g"
        [("A", ⟨"action", "A", [], none, none⟩),
         ("B", ⟨"decision", "B", [], none, none⟩)]
        [(("A", "B"), ⟨0, none, []⟩)]) false (3 + 1) [] "A"
        = ⟨"A", ⟨"action", "A", [], none, none⟩⟩ ::
          StateGraph.execWalk (StateGraph.mk "g"
            [("A", ⟨"action", "A", [], none, none⟩),
             ("B", ⟨"decision", "B", [], none, none⟩)]
            [(("A", "B"), ⟨0, none, []⟩)]) false 3 ["A"] e.1.2 :=
  (claim_C2_execution_sequence.2.2.1 (StateGraph.mk "g"
        [("A", ⟨"action", "A", [], none, none⟩),
         ("B", ⟨"decision", "B", [], none, none⟩)]
        [(("A", "B"), ⟨0, none, []⟩)]) false 3 [] "A"
      ⟨"action", "A", [], none, none⟩ (by decide) (by rfl)).2.2
    (by decide) (by decide)

theorem contains_iff_mem {l : List String} {x : String} :
    l.contains x = true ↔ x ∈ l := by
  simp [List.contains]

theorem mem_succsOf {g : StateGraph} {u x : String} :
    x ∈ StateGraph.succsOf g u ↔ ∃ e ∈ g.edges, e.1.1 = u ∧ e.1.2 = x := by
  unfold StateGraph.succsOf
  constructor
  · intro h
    obtain ⟨e, he, hx⟩ := List.mem_map.mp h
    have := List.mem_filter.mp he
    exact ⟨e, this.1, by simpa using this.2, hx⟩
  · rintro ⟨e, he, h1, h2⟩
    refine List.mem_map.mpr ⟨e, List.mem_filter.mpr ⟨he, by simpa using h1⟩, h2⟩

theorem hasEdge_iff_mem_succsOf {g : StateGraph} {u x : String} :
    g.hasEdge u x = true ↔ x ∈ StateGraph.succsOf g u := by
  rw [mem_succsOf, StateGraph.hasEdge_iff]
  constructor
  · intro h
    obtain ⟨e, he, hk⟩ := List.mem_map.mp h
    exact ⟨e, he, by rw [hk], by rw [hk]⟩
  · rintro ⟨e, he, h1, h2⟩
    refine List.mem_map.mpr ⟨e, he, Prod.ext h1 h2⟩

theorem mem_expand {g : StateGraph} {visited frontier : List String} {x : String} :
    x ∈ StateGraph.expand g visited frontier ↔
      (¬ x ∈ visited ∧ ∃ u ∈ frontier, g.hasEdge u x = true) := by
  unfold StateGraph.expand
  rw [List.mem_dedup, List.mem_filter]
  constructor
  · rintro ⟨hfl, hnv⟩
    obtain ⟨l, hl, hx⟩ := List.mem_flatten.mp hfl
    obtain ⟨u, hu, hlu⟩ := List.mem_map.mp hl
    refine ⟨?_, u, hu, ?_⟩
    · intro hc
      rw [contains_iff_mem.mpr hc] at hnv
      exact absurd hnv (by simp)
    · rw [hasEdge_iff_mem_succsOf]
      rw [← hlu] at hx
      exact hx
  · rintro ⟨hnv, u, hu, hedge⟩
    refine ⟨List.mem_flatten.mpr ⟨StateGraph.succsOf g u,
      List.mem_map.mpr ⟨u, hu, rfl⟩, hasEdge_iff_mem_succsOf.mp hedge⟩, ?_⟩
    cases hc : visited.contains x with
    | false => rfl
    | true => exact absurd (contains_iff_mem.mp hc) hnv

theorem stacked_tail {g : StateGraph} {a : String} {lvl : List (List String)}
    {hd : List String} (h : Stacked g a (hd :: lvl)) : Stacked g a lvl := h.2

theorem stacked_drop {g : StateGraph} {a : String} :
    ∀ (A B : List (List String)), Stacked g a (A ++ B) → Stacked g a B := by
  intro A
  induction A with
  | nil => intro B h; exact h
  | cons hd tl ih =>
    intro B h
    exact ih B (stacked_tail h)

theorem isChain_append_singleton {g : StateGraph} :
    ∀ (p : List String) (u b : String), ChainG g p → p.getLast? = some u →
      g.hasEdge u b = true → ChainG g (p ++ [b]) := by
  intro p
  induction p with
  | nil =>
    intro u b _ hlast _
    exact absurd hlast (by simp)
  | cons hd tl ih =>
    intro u b hchain hlast hedge
    cases tl with
    | nil =>
      have : hd = u := by simpa using hlast
      rw [this]
      exact ⟨hedge, trivial⟩
    | cons v rest =>
      have hchain' : g.hasEdge hd v = true ∧ ChainG g (v :: rest) := hchain
      have hlast' : (v :: rest).getLast? = some u := by
        rw [List.getLast?_cons_cons] at hlast
        exact hlast
      exact ⟨hchain'.1, ih u b hchain'.2 hlast' hedge⟩

theorem isPath_append_singleton {g : StateGraph} {p : List String}
    {a u b : String} (hp : IsPathFT g a u p) (he : g.hasEdge u b = true) :
    IsPathFT g a b (p ++ [b]) := by
  obtain ⟨hh, hl, hc⟩ := hp
  refine ⟨?_, ?_, isChain_append_singleton p u b hc hl he⟩
  · cases p with
    | nil => exact absurd hh (by simp)
    | cons x rest =>
      rw [List.head?_cons] at hh
      rw [List.cons_append, List.head?_cons]
      exact hh
  · rw [List.getLast?_concat]

theorem find?_pred_of_eq_some {α : Type} {p : α → Bool} {l : List α} {a : α}
    (h : l.find? p = some a) : p a = true :=
  List.find?_some h

theorem findPred_spec {g : StateGraph} {lvl : List String} {b u0 : String}
    (h : StateGraph.findPred g lvl b = some u0) :
    u0 ∈ lvl ∧ g.hasEdge u0 b = true := by
  unfold StateGraph.findPred at h
  have h1 := find?_pred_of_eq_some h
  exact ⟨List.mem_of_find?_eq_some h, h1⟩

theorem findPred_isSome {g : StateGraph} {lvl : List String} {b u : String}
    (hu : u ∈ lvl) (he : g.hasEdge u b = true) :
    ∃ u0, StateGraph.findPred g lvl b = some u0 := by
  unfold StateGraph.findPred
  cases hf : lvl.find? (fun u => g.hasEdge u b) with
  | none =>
    rw [List.find?_eq_none] at hf
    exact absurd he (by simpa using hf u hu)
  | some u0 => exact ⟨u0, rfl⟩

theorem reconstruct_cons (g : StateGraph) (b : String) (lvl : List String)
    (earlier : List (List String)) :
    StateGraph.reconstruct g b (lvl :: earlier)
      = match StateGraph.findPred g lvl b with
        | some u => StateGraph.reconstruct g u earlier ++ [b]
        | none => [b] := rfl

theorem reconstruct_spec (g : StateGraph) (a : String) :
    ∀ (earlier : List (List String)) (b : String),
      Stacked g a ([b] :: earlier) →
      IsPathFT g a b (StateGraph.reconstruct g b earlier) ∧
      (StateGraph.reconstruct g b earlier).length = earlier.length + 1 := by
  intro earlier
  induction earlier with
  | nil =>
    intro b hst
    have hba : b = a := hst.1 b (List.mem_singleton_self b)
    unfold StateGraph.reconstruct
    refine ⟨⟨?_, ?_, trivial⟩, rfl⟩
    · rw [List.head?_cons, hba]
    · rfl
  | cons lvl rest ih =>
    intro b hst
    have hconn : ∃ u ∈ lvl, g.hasEdge u b = true :=
      hst.1 b (List.mem_singleton_self b)
    obtain ⟨u, hu, hue⟩ := hconn
    obtain ⟨u0, hfind⟩ := findPred_isSome hu hue
    obtain ⟨hu0mem, hu0e⟩ := findPred_spec hfind
    have hst_rest : Stacked g a (lvl :: rest) := hst.2
    have hst_u0 : Stacked g a ([u0] :: rest) := by
      cases rest with
      | nil =>
        exact ⟨fun x hx => by
          rw [List.mem_singleton.mp hx]
          exact hst_rest.1 u0 hu0mem, trivial⟩
      | cons lvl2 rest2 =>
        exact ⟨fun x hx => by
          rw [List.mem_singleton.mp hx]
          exact hst_rest.1 u0 hu0mem, hst_rest.2⟩
    obtain ⟨hpath, hlen⟩ := ih u0 hst_u0
    have hrec : StateGraph.reconstruct g b (lvl :: rest)
        = StateGraph.reconstruct g u0 rest ++ [b] := by
      rw [reconstruct_cons, hfind]
    rw [hrec]
    refine ⟨isPath_append_singleton hpath hu0e, ?_⟩
    rw [List.length_append, hlen]
    rfl

theorem searchLevels_none {g : StateGraph} {b : String} :
    ∀ (rest earlier : List (List String)),
      StateGraph.searchLevels g b earlier rest = none →
      ∀ lvl ∈ rest, ¬ b ∈ lvl := by
  intro rest
  induction rest with
  | nil =>
    intro earlier _ lvl hlvl
    exact absurd hlvl (List.not_mem_nil lvl)
  | cons hd tl ih =>
    intro earlier hnone lvl hlvl
    unfold StateGraph.searchLevels at hnone
    by_cases hbc : hd.contains b = true
    · rw [if_pos hbc] at hnone
      exact absurd hnone (by simp)
    · rw [if_neg hbc] at hnone
      rcases List.mem_cons.mp hlvl with h | h
      · rw [h]
        intro hc
        exact hbc (contains_iff_mem.mpr hc)
      · exact ih (hd :: earlier) hnone lvl h

theorem searchLevels_some {g : StateGraph} {b : String} :
    ∀ (rest earlier : List (List String)) (p : List String),
      StateGraph.searchLevels g b earlier rest = some p →
      ∃ k, k < rest.length ∧ b ∈ rest.getD k [] ∧
        (∀ j, j < k → ¬ b ∈ rest.getD j []) ∧
        p = StateGraph.reconstruct g b ((rest.take k).reverse ++ earlier) := by
  intro rest
  induction rest with
  | nil =>
    intro earlier p h
    exact absurd h (by simp [StateGraph.searchLevels])
  | cons hd tl ih =>
    intro earlier p h
    unfold StateGraph.searchLevels at h
    by_cases hbc : hd.contains b = true
    · rw [if_pos hbc] at h
      refine ⟨0, by simp, ?_, fun j hj => absurd hj (by omega), ?_⟩
      · show b ∈ hd
        exact contains_iff_mem.mp hbc
      · have : p = StateGraph.reconstruct g b earlier := by
          injection h with h
          exact h.symm
        rw [this]
        rfl
    · rw [if_neg hbc] at h
      obtain ⟨k, hk, hbk, hfirst, hp⟩ := ih (hd :: earlier) p h
      refine ⟨k + 1, by simp only [List.length_cons]; omega, ?_, ?_, ?_⟩
      · show b ∈ (hd :: tl).getD (k + 1) []
        rw [List.getD_cons_succ]
        exact hbk
      · intro j hj
        cases j with
        | zero =>
          show ¬ b ∈ hd
          intro hc
          exact hbc (contains_iff_mem.mpr hc)
        | succ j' =>
          rw [List.getD_cons_succ]
          exact hfirst j' (by omega)
      · rw [hp]
        have : ((hd :: tl).take (k + 1)).reverse ++ earlier
            = (tl.take k).reverse ++ (hd :: earlier) := by
          rw [List.take_succ_cons, List.reverse_cons, List.append_assoc]
          rfl
        rw [this]

theorem bfsFront_succ (g : StateGraph) (fuel : Nat)
    (visited frontier : List String) :
    StateGraph.bfsFront g (fuel + 1) visited frontier
      = if (StateGraph.expand g visited frontier).isEmpty then []
        else (StateGraph.expand g visited frontier)
          :: StateGraph.bfsFront g fuel
              (visited ++ StateGraph.expand g visited frontier)
              (StateGraph.expand g visited frontier) := rfl

theorem bfsFront_stacked (g : StateGraph) (a : String) :
    ∀ (fuel : Nat) (visited frontier : List String) (S : List (List String)),
      Stacked g a (frontier :: S) →
      Stacked g a ((StateGraph.bfsFront g fuel visited frontier).reverse
        ++ (frontier :: S)) := by
  intro fuel
  induction fuel with
  | zero =>
    intro v f S h
    exact h
  | succ fuel ih =>
    intro v f S h
    rw [bfsFront_succ]
    by_cases hemp : (StateGraph.expand g v f).isEmpty = true
    · rw [if_pos hemp]
      exact h
    · rw [if_neg hemp]
      rw [List.reverse_cons, List.append_assoc]
      have hstep : Stacked g a (StateGraph.expand g v f :: f :: S) := by
        refine ⟨?_, h⟩
        intro x hx
        exact (mem_expand.mp hx).2
      exact ih (v ++ StateGraph.expand g v f) (StateGraph.expand g v f)
        (f :: S) hstep

theorem target_in_keys {g : StateGraph} (hri : RefIntegrity g) {u x : String}
    (h : g.hasEdge u x = true) : x ∈ g.nodes.map Prod.fst := by
  rw [StateGraph.hasEdge_iff] at h
  obtain ⟨e, he, hk⟩ := List.mem_map.mp h
  have h2 := (hri e he).2
  rw [hk] at h2
  exact StateGraph.hasNode_iff.mp h2

theorem bfs_closure (g : StateGraph) (hri : RefIntegrity g) :
    ∀ (fuel : Nat) (visited frontier : List String),
      visited.Nodup →
      (∀ x ∈ visited, x ∈ g.nodes.map Prod.fst) →
      (∀ x ∈ frontier, x ∈ visited) →
      (∀ u ∈ visited, ¬ u ∈ frontier → ∀ x, g.hasEdge u x = true → x ∈ visited) →
      (g.nodes.map Prod.fst).length < visited.length + fuel →
      ∀ u ∈ visited ++ (StateGraph.bfsFront g fuel visited frontier).flatten,
        ∀ x, g.hasEdge u x = true →
          x ∈ visited ++ (StateGraph.bfsFront g fuel visited frontier).flatten := by
  intro fuel
  induction fuel with
  | zero =>
    intro v f hnd hkeys hfv hcl hlen
    exfalso
    have hsub : v ⊆ g.nodes.map Prod.fst := fun x hx => hkeys x hx
    have := (List.subperm_of_subset hnd hsub).length_le
    omega
  | succ fuel ih =>
    intro v f hnd hkeys hfv hcl hlen
    rw [bfsFront_succ]
    by_cases hemp : (StateGraph.expand g v f).isEmpty = true
    · rw [if_pos hemp]
      intro u hu x hedge
      simp only [List.flatten_nil, List.append_nil] at hu ⊢
      by_cases huf : u ∈ f
      · by_cases hxv : x ∈ v
        · exact hxv
        · exfalso
          have : x ∈ StateGraph.expand g v f :=
            mem_expand.mpr ⟨hxv, u, huf, hedge⟩
          rw [List.isEmpty_iff.mp hemp] at this
          exact absurd this (List.not_mem_nil x)
      · exact hcl u hu huf x hedge
    · rw [if_neg hemp]
      have hnf_disj : ∀ x ∈ StateGraph.expand g v f, ¬ x ∈ v :=
        fun x hx => (mem_expand.mp hx).1
      have hnd' : (v ++ StateGraph.expand g v f).Nodup := by
        refine List.Nodup.append hnd (List.nodup_dedup _) ?_
        intro x hxv hxnf
        exact hnf_disj x hxnf hxv
      have hkeys' : ∀ x ∈ v ++ StateGraph.expand g v f,
          x ∈ g.nodes.map Prod.fst := by
        intro x hx
        rcases List.mem_append.mp hx with h | h
        · exact hkeys x h
        · obtain ⟨-, u, -, hedge⟩ := mem_expand.mp h
          exact target_in_keys hri hedge
      have hfv' : ∀ x ∈ StateGraph.expand g v f,
          x ∈ v ++ StateGraph.expand g v f :=
        fun x hx => List.mem_append.mpr (Or.inr hx)
      have hcl' : ∀ u ∈ v ++ StateGraph.expand g v f,
          ¬ u ∈ StateGraph.expand g v f →
          ∀ x, g.hasEdge u x = true → x ∈ v ++ StateGraph.expand g v f := by
        intro u hu hunf x hedge
        have huv : u ∈ v := by
          rcases List.mem_append.mp hu with h | h
          · exact h
          · exact absurd h hunf
        by_cases huf : u ∈ f
        · by_cases hxv : x ∈ v
          · exact List.mem_append.mpr (Or.inl hxv)
          · exact List.mem_append.mpr
              (Or.inr (mem_expand.mpr ⟨hxv, u, huf, hedge⟩))
        · exact List.mem_append.mpr (Or.inl (hcl u huv huf x hedge))
      have hlen' : (g.nodes.map Prod.fst).length
          < (v ++ StateGraph.expand g v f).length + fuel := by
        rw [List.length_append]
        have : 0 < (StateGraph.expand g v f).length := by
          cases hx : StateGraph.expand g v f with
          | nil => rw [hx] at hemp; exact absurd rfl hemp
          | cons y ys => simp
        omega
      have hmain := ih (v ++ StateGraph.expand g v f)
        (StateGraph.expand g v f) hnd' hkeys' hfv' hcl' hlen'
      intro u hu x hedge
      have hu' : u ∈ (v ++ StateGraph.expand g v f)
          ++ (StateGraph.bfsFront g fuel (v ++ StateGraph.expand g v f)
              (StateGraph.expand g v f)).flatten := by
        rw [List.append_assoc]
        simpa using hu
      have hx' := hmain u hu' x hedge
      rw [List.append_assoc] at hx'
      simpa using hx'

theorem take_flatten_mono {α : Type} (L : List (List α)) (j : Nat) {x : α}
    (h : x ∈ (L.take j).flatten) : x ∈ (L.take (j + 1)).flatten := by
  obtain ⟨l, hl, hx⟩ := List.mem_flatten.mp h
  refine List.mem_flatten.mpr ⟨l, ?_, hx⟩
  have heq : L.take j = (L.take (j + 1)).take j := by
    rw [List.take_take]
    rw [Nat.min_eq_left (Nat.le_succ j)]
  rw [heq] at hl
  exact List.take_subset _ _ hl

theorem bfs_ladder (g : StateGraph) (hri : RefIntegrity g) :
    ∀ (fuel : Nat) (visited frontier : List String),
      visited.Nodup →
      (∀ x ∈ visited, x ∈ g.nodes.map Prod.fst) →
      (∀ x ∈ frontier, x ∈ visited) →
      (∀ u ∈ visited, ¬ u ∈ frontier → ∀ x, g.hasEdge u x = true → x ∈ visited) →
      (g.nodes.map Prod.fst).length < visited.length + fuel →
      ∀ (j : Nat) (w x : String),
        w ∈ visited
          ++ ((StateGraph.bfsFront g fuel visited frontier).take j).flatten →
        g.hasEdge w x = true →
        x ∈ visited
          ++ ((StateGraph.bfsFront g fuel visited frontier).take (j + 1)).flatten := by
  intro fuel
  induction fuel with
  | zero =>
    intro v f hnd hkeys hfv hcl hlen
    exfalso
    have hsub : v ⊆ g.nodes.map Prod.fst := fun x hx => hkeys x hx
    have := (List.subperm_of_subset hnd hsub).length_le
    omega
  | succ fuel ih =>
    intro v f hnd hkeys hfv hcl hlen j w x
    rw [bfsFront_succ]
    by_cases hemp : (StateGraph.expand g v f).isEmpty = true
    · rw [if_pos hemp]
      intro hw hedge
      simp only [List.take_nil, List.flatten_nil, List.append_nil] at hw ⊢
      by_cases huf : w ∈ f
      · by_cases hxv : x ∈ v
        · exact hxv
        · exfalso
          have : x ∈ StateGraph.expand g v f :=
            mem_expand.mpr ⟨hxv, w, huf, hedge⟩
          rw [List.isEmpty_iff.mp hemp] at this
          exact absurd this (List.not_mem_nil x)
      · exact hcl w hw huf x hedge
    · rw [if_neg hemp]
      cases j with
      | zero =>
        intro hw hedge
        simp only [List.take_zero, List.flatten_nil, List.append_nil] at hw
        rw [List.take_succ_cons, List.take_zero]
        by_cases huf : w ∈ f
        · by_cases hxv : x ∈ v
          · exact List.mem_append.mpr (Or.inl hxv)
          · refine List.mem_append.mpr (Or.inr ?_)
            simp only [List.flatten_cons, List.flatten_nil, List.append_nil]
            exact mem_expand.mpr ⟨hxv, w, huf, hedge⟩
        · exact List.mem_append.mpr (Or.inl (hcl w hw huf x hedge))
      | succ j =>
        intro hw hedge
        rw [List.take_succ_cons] at hw ⊢
        have hnf_disj : ∀ y ∈ StateGraph.expand g v f, ¬ y ∈ v :=
          fun y hy => (mem_expand.mp hy).1
        have hnd' : (v ++ StateGraph.expand g v f).Nodup := by
          refine List.Nodup.append hnd (List.nodup_dedup _) ?_
          intro y hyv hynf
          exact hnf_disj y hynf hyv
        have hkeys' : ∀ y ∈ v ++ StateGraph.expand g v f,
            y ∈ g.nodes.map Prod.fst := by
          intro y hy
          rcases List.mem_append.mp hy with h | h
          · exact hkeys y h
          · obtain ⟨-, u, -, he2⟩ := mem_expand.mp h
            exact target_in_keys hri he2
        have hfv' : ∀ y ∈ StateGraph.expand g v f,
            y ∈ v ++ StateGraph.expand g v f :=
          fun y hy => List.mem_append.mpr (Or.inr hy)
        have hcl' : ∀ u ∈ v ++ StateGraph.expand g v f,
            ¬ u ∈ StateGraph.expand g v f →
            ∀ y, g.hasEdge u y = true → y ∈ v ++ StateGraph.expand g v f := by
          intro u hu hunf y he2
          have huv : u ∈ v := by
            rcases List.mem_append.mp hu with h | h
            · exact h
            · exact absurd h hunf
          by_cases huf : u ∈ f
          · by_cases hyv : y ∈ v
            · exact List.mem_append.mpr (Or.inl hyv)
            · exact List.mem_append.mpr
                (Or.inr (mem_expand.mpr ⟨hyv, u, huf, he2⟩))
          · exact List.mem_append.mpr (Or.inl (hcl u huv huf y he2))
        have hlen' : (g.nodes.map Prod.fst).length
            < (v ++ StateGraph.expand g v f).length + fuel := by
          rw [List.length_append]
          have : 0 < (StateGraph.expand g v f).length := by
            cases hx2 : StateGraph.expand g v f with
            | nil => rw [hx2] at hemp; exact absurd rfl hemp
            | cons y ys => simp
          omega
        have hw' : w ∈ (v ++ StateGraph.expand g v f)
            ++ ((StateGraph.bfsFront g fuel (v ++ StateGraph.expand g v f)
                (StateGraph.expand g v f)).take j).flatten := by
          rw [List.append_assoc]
          simpa using hw
        have hx' := ih (v ++ StateGraph.expand g v f)
          (StateGraph.expand g v f) hnd' hkeys' hfv' hcl' hlen' j w x hw' hedge
        rw [List.append_assoc] at hx'
        simpa using hx'

theorem bfs_cov (g : StateGraph) (hri : RefIntegrity g) (a : String)
    (ha : g.hasNode a = true) :
    ∀ (j : Nat) (x : String), StepsLe g j a x →
      x ∈ [a] ++ ((StateGraph.bfsFront g g.nodes.length [a] [a]).take j).flatten := by
  have hlen0 : (g.nodes.map Prod.fst).length < ([a] : List String).length
      + g.nodes.length := by
    rw [List.length_map]
    simp
  intro j
  induction j with
  | zero =>
    intro x hx
    rw [show x = a from hx]
    exact List.mem_append.mpr (Or.inl (List.mem_singleton_self a))
  | succ j ih =>
    intro x hx
    rcases hx with hx | ⟨w, hw, hedge⟩
    · rcases List.mem_append.mp (ih x hx) with h | h
      · exact List.mem_append.mpr (Or.inl h)
      · exact List.mem_append.mpr (Or.inr (take_flatten_mono _ j h))
    · have hw' := ih w hw
      refine bfs_ladder g hri g.nodes.length [a] [a]
        (List.nodup_singleton a)
        (fun y hy => by
          rw [List.mem_singleton.mp hy]
          exact StateGraph.hasNode_iff.mp ha)
        (fun y hy => hy)
        (fun u hu hnu => absurd hu hnu)
        hlen0 j w x hw' hedge

theorem path_mem_closed {g : StateGraph} {W : List String}
    (hcl : ∀ u ∈ W, ∀ x, g.hasEdge u x = true → x ∈ W) :
    ∀ (p : List String) (aa bb : String), IsPathFT g aa bb p → aa ∈ W → bb ∈ W := by
  intro p
  induction p with
  | nil =>
    intro aa bb hp _
    exact absurd hp.1 (by simp)
  | cons hd tl ihp =>
    intro aa bb hp haW
    have hhd : hd = aa := by simpa using hp.1
    cases tl with
    | nil =>
      have hbb : bb = hd := by
        have := hp.2.1
        simp at this
        exact this.symm
      rw [hbb, hhd]
      exact haW
    | cons v rest =>
      have hchain : g.hasEdge hd v = true ∧ ChainG g (v :: rest) := hp.2.2
      have hvW : v ∈ W := hcl hd (by rw [hhd]; exact haW) v hchain.1
      refine ihp v bb ⟨rfl, ?_, hchain.2⟩ hvW
      have := hp.2.1
      rw [List.getLast?_cons_cons] at this
      exact this

theorem chainG_append_inv {g : StateGraph} :
    ∀ (p : List String) (b : String), ChainG g (p ++ [b]) →
      ChainG g p ∧ (∀ u, p.getLast? = some u → g.hasEdge u b = true) := by
  intro p
  induction p with
  | nil =>
    intro b _
    exact ⟨trivial, fun u hu => absurd hu (by simp)⟩
  | cons hd tl ih =>
    intro b h
    cases tl with
    | nil =>
      have h' : g.hasEdge hd b = true ∧ ChainG g [b] := h
      refine ⟨trivial, fun u hu => ?_⟩
      have : hd = u := by simpa using hu
      rw [← this]
      exact h'.1
    | cons v rest =>
      rw [List.cons_append, List.cons_append] at h
      have h' : g.hasEdge hd v = true ∧ ChainG g ((v :: rest) ++ [b]) := by
        rw [List.cons_append]
        exact h
      obtain ⟨hc, hlast⟩ := ih b h'.2
      refine ⟨⟨h'.1, hc⟩, fun u hu => ?_⟩
      rw [List.getLast?_cons_cons] at hu
      exact hlast u hu

theorem path_stepsLe {g : StateGraph} :
    ∀ (p : List String) (aa bb : String), IsPathFT g aa bb p →
      StepsLe g (p.length - 1) aa bb := by
  intro p
  induction p using List.reverseRecOn with
  | nil =>
    intro aa bb hp
    exact absurd hp.1 (by simp)
  | append_singleton p b ihp =>
    intro aa bb hp
    have hbb : bb = b := by
      have := hp.2.1
      rw [List.getLast?_concat] at this
      simpa using this.symm
    by_cases hp0 : p = []
    · rw [hp0] at hp ⊢
      have haa : aa = b := by simpa using hp.1.symm
      show bb = aa
      rw [haa, hbb]
    · obtain ⟨q, qs, hpe⟩ := List.exists_cons_of_ne_nil hp0
      obtain ⟨u, hu⟩ : ∃ u, p.getLast? = some u := by
        rw [hpe]
        exact ⟨(q :: qs).getLast (by simp), List.getLast?_eq_getLast _ _⟩
      have hsplit := chainG_append_inv p b hp.2.2
      have hedge : g.hasEdge u b = true := hsplit.2 u hu
      have hhead : p.head? = some aa := by
        have h1 := hp.1
        rw [hpe, List.cons_append, List.head?_cons] at h1
        rw [hpe, List.head?_cons]
        exact h1
      have hpath : IsPathFT g aa u p := ⟨hhead, hu, hsplit.1⟩
      have hsteps := ihp aa u hpath
      have hlen : (p ++ [b]).length - 1 = (p.length - 1) + 1 := by
        rw [List.length_append, List.length_singleton]
        have := List.length_pos.mpr hp0
        omega
      rw [hlen]
      exact Or.inr ⟨u, hsteps, by rw [hbb]; exact hedge⟩

theorem stacked_single_top {g : StateGraph} {a : String} {lvl : List String}
    {rest : List (List String)} {b : String}
    (h : Stacked g a (lvl :: rest)) (hb : b ∈ lvl) :
    Stacked g a ([b] :: rest) := by
  cases rest with
  | nil =>
    exact ⟨fun x hx => by
      rw [List.mem_singleton.mp hx]
      exact h.1 b hb, trivial⟩
  | cons l2 r2 =>
    exact ⟨fun x hx => by
      rw [List.mem_singleton.mp hx]
      exact h.1 b hb, h.2⟩

theorem searchLevels_cons (g : StateGraph) (b : String)
    (earlier : List (List String)) (lvl : List String)
    (rest : List (List String)) :
    StateGraph.searchLevels g b earlier (lvl :: rest)
      = if lvl.contains b then some (StateGraph.reconstruct g b earlier)
        else StateGraph.searchLevels g b (lvl :: earlier) rest := rfl

theorem levels_stacked (g : StateGraph) (a : String) :
    Stacked g a ((StateGraph.bfsLevels g a).reverse) := by
  have hlv : StateGraph.bfsLevels g a
      = [a] :: StateGraph.bfsFront g g.nodes.length [a] [a] := rfl
  rw [hlv, List.reverse_cons]
  exact bfsFront_stacked g a g.nodes.length [a] [a] []
    ⟨fun x hx => List.mem_singleton.mp hx, trivial⟩

theorem stacked_take_reverse (g : StateGraph) (a : String) (m : Nat) :
    Stacked g a (((StateGraph.bfsLevels g a).take m).reverse) := by
  have h1 := levels_stacked g a
  have h2 : (StateGraph.bfsLevels g a).reverse
      = ((StateGraph.bfsLevels g a).drop m).reverse
        ++ ((StateGraph.bfsLevels g a).take m).reverse := by
    conv_lhs => rw [← List.take_append_drop m (StateGraph.bfsLevels g a)]
    rw [List.reverse_append]
  rw [h2] at h1
  exact stacked_drop _ _ h1

theorem take_succ_reverse (L : List (List String)) (k : Nat) (hk : k < L.length) :
    (L.take (k + 1)).reverse = L.getD k [] :: (L.take k).reverse := by
  rw [List.take_succ]
  have h1 : L[k]? = some (L.getD k []) := by
    rw [List.getElem?_eq_getElem hk]
    rw [List.getD_eq_getElem L [] hk]
  rw [h1]
  show (L.take k ++ [L.getD k []]).reverse = _
  rw [List.reverse_concat]

theorem find_path_eq (g : StateGraph) (a b : String)
    (ha : g.hasNode a = true) (hb : g.hasNode b = true) :
    g.find_path a b
      = match StateGraph.searchLevels g b [] (StateGraph.bfsLevels g a) with
        | some p => .ok p
        | none => .ok [] := by
  unfold StateGraph.find_path
  rw [if_neg (by simp [ha]), if_neg (by simp [hb])]

theorem searchLevels_found_spec (g : StateGraph) (a b : String)
    (hri : RefIntegrity g) (ha : g.hasNode a = true) (p : List String)
    (hfound : StateGraph.searchLevels g b [] (StateGraph.bfsLevels g a)
      = some p) :
    IsPathFT g a b p ∧ ∀ q, IsPathFT g a b q → p.length ≤ q.length := by
  obtain ⟨k, hk, hbk, hfirst, hp⟩ :=
    searchLevels_some (StateGraph.bfsLevels g a) [] p hfound
  rw [List.append_nil] at hp
  have hs1 := stacked_take_reverse g a (k + 1)
  rw [take_succ_reverse _ k hk] at hs1
  have hsb := stacked_single_top hs1 hbk
  obtain ⟨hpath, hlen⟩ := reconstruct_spec g a _ b hsb
  rw [← hp] at hpath hlen
  have hplen : p.length = k + 1 := by
    rw [List.length_reverse, List.length_take,
      Nat.min_eq_left (Nat.le_of_lt hk)] at hlen
    exact hlen
  refine ⟨hpath, ?_⟩
  intro q hq
  have hqne : ¬ q = [] := by
    intro hc
    rw [hc] at hq
    exact absurd hq.1 (by simp)
  have hqlen : 1 ≤ q.length := List.length_pos.mpr hqne
  have hsteps := path_stepsLe q a b hq
  have hcov := bfs_cov g hri a ha (q.length - 1) b hsteps
  have hlv : StateGraph.bfsLevels g a
      = [a] :: StateGraph.bfsFront g g.nodes.length [a] [a] := rfl
  rcases List.mem_append.mp hcov with h | h
  · have hb0 : b ∈ (StateGraph.bfsLevels g a).getD 0 [] := by
      rw [hlv]
      exact h
    have hk0 : k = 0 := by
      by_contra hkk
      exact hfirst 0 (by omega) hb0
    rw [hplen, hk0]
    omega
  · obtain ⟨lvl, hlvl, hbl⟩ := List.mem_flatten.mp h
    obtain ⟨i, hi, hieq⟩ := List.mem_iff_getElem.mp hlvl
    have hi_lt_j : i < q.length - 1 := by
      have := List.length_take_le (q.length - 1)
        (StateGraph.bfsFront g g.nodes.length [a] [a])
      have h2 : ((StateGraph.bfsFront g g.nodes.length [a] [a]).take
          (q.length - 1)).length
          = min (q.length - 1)
              (StateGraph.bfsFront g g.nodes.length [a] [a]).length :=
        List.length_take _ _
      omega
    have hi_front : i < (StateGraph.bfsFront g g.nodes.length [a] [a]).length := by
      have h2 : ((StateGraph.bfsFront g g.nodes.length [a] [a]).take
          (q.length - 1)).length
          = min (q.length - 1)
              (StateGraph.bfsFront g g.nodes.length [a] [a]).length :=
        List.length_take _ _
      omega
    have htake : ((StateGraph.bfsFront g g.nodes.length [a] [a]).take
        (q.length - 1))[i] = (StateGraph.bfsFront g g.nodes.length [a] [a])[i] :=
      List.getElem_take _
    have hbidx : b ∈ (StateGraph.bfsLevels g a).getD (i + 1) [] := by
      rw [hlv, List.getD_cons_succ]
      rw [List.getD_eq_getElem (StateGraph.bfsFront g g.nodes.length [a] [a])
        [] hi_front]
      rw [← htake, hieq]
      exact hbl
    have hk_le : k ≤ i + 1 := by
      by_contra hkk
      exact hfirst (i + 1) (by omega) hbidx
    rw [hplen]
    omega

theorem searchLevels_none_unreachable (g : StateGraph) (a b : String)
    (hri : RefIntegrity g) (ha : g.hasNode a = true)
    (hnone : StateGraph.searchLevels g b [] (StateGraph.bfsLevels g a) = none) :
    ¬ ∃ q, IsPathFT g a b q := by
  rintro ⟨q, hq⟩
  have hnot := searchLevels_none (StateGraph.bfsLevels g a) [] hnone
  have hlen0 : (g.nodes.map Prod.fst).length < ([a] : List String).length
      + g.nodes.length := by
    rw [List.length_map]
    simp
  have hcl := bfs_closure g hri g.nodes.length [a] [a]
    (List.nodup_singleton a)
    (fun y hy => by
      rw [List.mem_singleton.mp hy]
      exact StateGraph.hasNode_iff.mp ha)
    (fun y hy => hy)
    (fun u hu hnu => absurd hu hnu)
    hlen0
  have haW : a ∈ ([a] : List String)
      ++ (StateGraph.bfsFront g g.nodes.length [a] [a]).flatten :=
    List.mem_append.mpr (Or.inl (List.mem_singleton_self a))
  have hbW := path_mem_closed hcl q a b hq haW
  have hlv : StateGraph.bfsLevels g a
      = [a] :: StateGraph.bfsFront g g.nodes.length [a] [a] := rfl
  rcases List.mem_append.mp hbW with h | h
  · refine hnot [a] ?_ h
    rw [hlv]
    exact List.mem_cons_self _ _
  · obtain ⟨lvl, hlvl, hbl⟩ := List.mem_flatten.mp h
    refine hnot lvl ?_ hbl
    rw [hlv]
    exact List.mem_cons_of_mem _ hlvl

/-- C5.  For present endpoints: `find_path a a` returns the one-element
path [a]; when no directed path exists, `find_path` returns the empty
list and no error; when some directed path exists, `find_path` returns a
path from a to b inclusive whose length is minimal among all directed
paths (unweighted breadth-first shortest path).  The referential-integrity
hypothesis holds on every reachable state. -/
theorem claim_C5_find_path (g : StateGraph) (a b : String)
    (hri : RefIntegrity g) (ha : g.hasNode a = true) (hb : g.hasNode b = true) :
    (g.find_path a a = .ok [a]) ∧
    ((¬ ∃ q, IsPathFT g a b q) → g.find_path a b = .ok []) ∧
    (∀ q, IsPathFT g a b q →
      ∃ p, g.find_path a b = .ok p ∧ IsPathFT g a b p ∧
        ∀ q2, IsPathFT g a b q2 → p.length ≤ q2.length) := by
  refine ⟨?_, ?_, ?_⟩
  · rw [find_path_eq g a a ha ha]
    have hsl : StateGraph.searchLevels g a [] (StateGraph.bfsLevels g a)
        = some [a] := by
      have hlv : StateGraph.bfsLevels g a
          = [a] :: StateGraph.bfsFront g g.nodes.length [a] [a] := rfl
      rw [hlv, searchLevels_cons]
      rw [if_pos (by simp)]
      rfl
    rw [hsl]
  · intro hnoq
    rw [find_path_eq g a b ha hb]
    cases hsl : StateGraph.searchLevels g b [] (StateGraph.bfsLevels g a) with
    | none => rfl
    | some p =>
      exact absurd ⟨p, (searchLevels_found_spec g a b hri ha p hsl).1⟩ hnoq
  · intro q hq
    rw [find_path_eq g a b ha hb]
    cases hsl : StateGraph.searchLevels g b [] (StateGraph.bfsLevels g a) with
    | none =>
      exact absurd ⟨q, hq⟩ (searchLevels_none_unreachable g a b hri ha hsl)
    | some p =>
      obtain ⟨hpath, hmin⟩ := searchLevels_found_spec g a b hri ha p hsl
      exact ⟨p, rfl, hpath, hmin⟩

/-- Witness for C5 on a concrete two-node graph with one edge. -/
theorem claim_C5_witness :
    ((StateGraph.mk "g"
        [("a", ⟨"action", "a", [], none, none⟩),
         ("b", ⟨"action", "b", [], none, none⟩)]
        [(("a", "b"), ⟨0, none, []⟩)]).find_path "a" "a" = .ok ["a"]) ∧
    ∃ p, (StateGraph.mk "g"
        [("a", ⟨"action", "a", [], none, none⟩),
         ("b", ⟨"action", "b", [], none, none⟩)]
        [(("a", "b"), ⟨0, none, []⟩)]).find_path "a" "b" = .ok p ∧
      IsPathFT (StateGraph.mk "g"
        [("a", ⟨"action", "a", [], none, none⟩),
         ("b", ⟨"action", "b", [], none, none⟩)]
        [(("a", "b"), ⟨0, none, []⟩)]) "a" "b" p := by
  have h := claim_C5_find_path (StateGraph.mk "g"
        [("a", ⟨"action", "a", [], none, none⟩),
         ("b", ⟨"action", "b", [], none, none⟩)]
        [(("a", "b"), ⟨0, none, []⟩)]) "a" "b"
    (by unfold RefIntegrity; decide) (by decide) (by decide)
  refine ⟨h.1, ?_⟩
  have hq : IsPathFT (StateGraph.mk "g"
        [("a", ⟨"action", "a", [], none, none⟩),
         ("b", ⟨"action", "b", [], none, none⟩)]
        [(("a", "b"), ⟨0, none, []⟩)]) "a" "b" ["a", "b"] :=
    ⟨rfl, rfl, by decide, trivial⟩
  obtain ⟨p, hfp, hpath, -⟩ := h.2.2 ["a", "b"] hq
  exact ⟨p, hfp, hpath⟩
